import Mathlib

/-!
Verification of the mod-catalog manager's dependency-resolution and
download-orchestration core (`src/main.rs`).

The Rust data types (`DependencyInfo`, `FileInfo`, `VersionFileInfo`,
`ModInfo`) are embedded as Lean structures with the same field names.
The iterative resolver `download_mod_to_dir` is embedded as a fuel-indexed
step loop over an explicit `ResolveState`; the network, the filesystem
directory creation and the file-download side effect are parameters of an
`Env` record, each returning `Except` so that errors propagate the way the
Rust `?` operator does.  Download invocations and printed missing-version
warnings are recorded as traces in the state so that counting properties
can be stated.
-/

namespace Mcmod

/-- Rust struct `DependencyInfo`: a dependency edge `(addon_id, type)`. -/
structure DependencyInfo where
  addon_id : Nat
  type : Nat
deriving DecidableEq, Repr

/-- Rust struct `VersionFileInfo`: one `(game_version, project_file_id)` entry
of a mod's `game_version_latest_files` list. -/
structure VersionFileInfo where
  game_version : String
  project_file_id : Nat
deriving DecidableEq, Repr

/-- Rust struct `FileInfo`: the file detail fetched from
`/addon/{id}/file/{fileId}`. -/
structure FileInfo where
  id : Nat
  download_url : String
  game_version : List String
  dependencies : List DependencyInfo
  file_name_on_disk : String
  file_length : Nat
deriving DecidableEq, Repr

/-- Rust struct `ModInfo`: one registry record.  `download_count` is an `f64`
in the source; it is carried as data and never computed with. -/
structure ModInfo where
  id : Nat
  name : String
  website_url : String
  summary : String
  download_count : Float
  game_version_latest_files : List VersionFileInfo
deriving Repr

/-- `dict.iter().find(|mod_info| mod_info.id == id)`: first record with the
given id, scanning from the front. -/
def lookupDict (dict : List ModInfo) (id : Nat) : Option ModInfo :=
  dict.find? fun m => m.id == id

/-- `mod_info.game_version_latest_files.iter().find(|f| f.game_version == version)`:
exact string equality on the version. -/
def findFileRef (m : ModInfo) (version : String) : Option VersionFileInfo :=
  m.game_version_latest_files.find? fun f => f.game_version == version

/-- The dependency ids pushed after a successful download:
`for dep in file_info.dependencies { if dep.type == 1 || dep.type == 3 { stack.push(dep.addon_id) } }`.
The Rust stack pops from the back of a `Vec`; our stack pops from the head of
a list, so the pushed run is the filtered list reversed. -/
def propagateDeps (fi : FileInfo) : List Nat :=
  ((fi.dependencies.filter fun d => d.type == 1 || d.type == 3).map
    (fun d => d.addon_id)).reverse

/-- `PathBuf::join` of a directory and a relative file name. -/
def joinPath (dir fn : String) : String := dir ++ "/" ++ fn

/-- The effectful collaborators of the resolver, indexed by the error type
that Rust's `Box<Error>` carries:
`remoteAddon id` is `GET /addon/{id}` followed by `.json()` (both behind `?`),
`remoteFile id fid` is `GET /addon/{id}/file/{fid}` (behind `?`),
`createDir` is `create_dir_all(dir)?`, and
`download fi path` is the `download(&file_info, &path, client)?` call. -/
structure Env (ε : Type) where
  remoteAddon : Nat → Except ε ModInfo
  remoteFile : Nat → Nat → Except ε FileInfo
  createDir : String → Except ε Unit
  download : FileInfo → String → Except ε Unit

/-- The mutable state of one `download_mod_to_dir` call: the explicit `stack`,
the `downloaded` de-duplication list and the registry `dict`, plus two traces
recording the observable events — `dlTrace` is one `(id, write_to_path)` entry
per invocation of `download`, `warnTrace` one id per printed
"No mod ... for Minecraft version ..." message. -/
structure ResolveState where
  stack : List Nat
  downloaded : List Nat
  dict : List ModInfo
  dlTrace : List (Nat × String)
  warnTrace : List Nat

/-- Outcome of a finished resolution: `Ok(())` or `Err(e)` with the state at
the moment of abort (the traces record what had already happened). -/
inductive RunResult (ε : Type) where
  | ok (s : ResolveState)
  | err (e : ε) (s : ResolveState)

def RunResult.state {ε : Type} : RunResult ε → ResolveState
  | .ok s => s
  | .err _ s => s

/-- One outcome of the loop body: either the loop halts with a result, or it
continues with a new state. -/
inductive StepOut (ε : Type) where
  | halt (r : RunResult ε)
  | next (s : ResolveState)

/-- One iteration of the `loop` body of `download_mod_to_dir`
(src/main.rs lines 369-416), for a fixed destination directory `dir` and
target `version`:

* empty stack: `break Ok(())`;
* popped id already in `downloaded`: skip;
* id in `dict`: if some file entry has `game_version == version`, run
  `create_dir_all(dir)?`, fetch the file detail (`?`), invoke
  `download` on `dir.join(file_name_on_disk)` (`?`), push the id onto
  `downloaded` and push the type-1/type-3 dependency ids; otherwise print the
  missing-version warning and move on (the id is NOT added to `downloaded`);
* id not in `dict`: fetch the record (`?`), push `mod_info.id` back onto the
  stack, and append the record to `dict` only when no record with that id is
  present. -/
def stepResolve {ε : Type} (env : Env ε) (dir version : String)
    (s : ResolveState) : StepOut ε :=
  match s.stack with
  | [] => .halt (.ok s)
  | id :: rest =>
    if id ∈ s.downloaded then
      .next { s with stack := rest }
    else
      match lookupDict s.dict id with
      | some m =>
        match findFileRef m version with
        | some vf =>
          match env.createDir dir with
          | .error e => .halt (.err e s)
          | .ok _ =>
            match env.remoteFile id vf.project_file_id with
            | .error e => .halt (.err e s)
            | .ok fi =>
              let s1 := { s with
                dlTrace := s.dlTrace ++ [(id, joinPath dir fi.file_name_on_disk)] }
              match env.download fi (joinPath dir fi.file_name_on_disk) with
              | .error e => .halt (.err e s1)
              | .ok _ =>
                .next { s1 with
                  stack := propagateDeps fi ++ rest,
                  downloaded := s.downloaded ++ [id] }
        | none =>
          .next { s with stack := rest, warnTrace := s.warnTrace ++ [id] }
      | none =>
        match env.remoteAddon id with
        | .error e => .halt (.err e s)
        | .ok m =>
          .next { s with
            stack := m.id :: rest,
            dict := if (lookupDict s.dict m.id).isSome then s.dict
                    else s.dict ++ [m] }

/-- The full `download_mod_to_dir` loop, fuel-indexed: `none` means the fuel
ran out before the loop finished (the Rust loop has no fuel; termination for
every finite catalog is proved separately). -/
def download_mod_to_dir {ε : Type} (env : Env ε) (dir version : String) :
    Nat → ResolveState → Option (RunResult ε)
  | 0, _ => none
  | fuel + 1, s =>
    match stepResolve env dir version s with
    | .halt r => some r
    | .next s1 => download_mod_to_dir env dir version fuel s1

/-- The initial state of `download_mod_to_dir(dir, id, dict, version, client)`:
`stack = vec![id]`, `downloaded` empty, traces empty. -/
def initState (root : Nat) (dict : List ModInfo) : ResolveState :=
  ⟨[root], [], dict, [], []⟩

/-- The ids of the download invocations of a run, in order. -/
def dlIds (s : ResolveState) : List Nat := s.dlTrace.map (fun e => e.1)

/-- Projection helpers for stating concrete runs without comparing whole
states (records carry a `Float` field). -/
def runDlIds {ε : Type} : Option (RunResult ε) → Option (List Nat)
  | some r => some (dlIds r.state)
  | none => none

def runIsOk {ε : Type} : Option (RunResult ε) → Bool
  | some (.ok _) => true
  | _ => false

/-! ### The registry mutations of the other commands -/

/-- The insertion loop of the `search` (and `print`) handler: each fetched
record is appended only when no record with its id is already present
(src/main.rs 215-217 resp. 293). -/
def searchInsert (dict fetched : List ModInfo) : List ModInfo :=
  fetched.foldl
    (fun d m => if (lookupDict d m.id).isSome then d else d ++ [m]) dict

/-- `dict.sort_by_key(|mod_info| mod_info.id)`: a stable sort by id. -/
def sortById (dict : List ModInfo) : List ModInfo :=
  dict.mergeSort (fun a b => a.id ≤ b.id)

/-- The registry after a successful non-empty `search`: insert the fetched
records, then re-sort (src/main.rs 208-219). -/
def searchCmdDict (dict fetched : List ModInfo) : List ModInfo :=
  sortById (searchInsert dict fetched)

/-- The registry after the `update`/`clear` handler: `dict.clear()`
(src/main.rs 315-317). -/
def clearDict : List ModInfo := []

/-! ### The Download command handler -/

/-- Collaborators of the `Download` handler.  `promptVersion` is the result of
the single interactive version prompt (the readline retry loop of
src/main.rs 238-244 is modelled as one successful prompting session);
`rootFetch id` is the handler's own `GET /addon/{id}` (src/main.rs 252-255):
a transport failure (`send()?`) is `.error`, a JSON-decode failure (the
`if let Ok` falling through) is `.ok none`. -/
structure CmdEnv (ε : Type) where
  renv : Env ε
  promptVersion : String
  rootFetch : Nat → Except ε (Option ModInfo)

/-- Decimal-digit accumulator for `parseU32`. -/
def parseDigits : List Char → Nat → Option Nat
  | [], acc => some acc
  | c :: cs, acc =>
    if c.isDigit then parseDigits cs (acc * 10 + (c.toNat - 48)) else none

/-- `id.parse::<u32>()`: one or more decimal digits whose value fits in 32
bits (the optional leading sign Rust accepts is irrelevant to the inputs the
handler sees). -/
def parseU32 (tok : String) : Option Nat :=
  match tok.data with
  | [] => none
  | c :: cs =>
    match parseDigits (c :: cs) 0 with
    | none => none
    | some n => if n < 4294967296 then some n else none

/-- `format!("./mods/{}/{}", version, mod_info.name)`. -/
def modsDir (version name : String) : String :=
  "./mods/" ++ version ++ "/" ++ name

/-- Observable state accumulated by one invocation of the `download` command:
the prompt-session count, the registry, every download invocation of every
resolution run by the command, and one `(root id, directory)` pair per
resolution started. -/
structure CmdSt where
  promptCount : Nat
  dict : List ModInfo
  events : List (Nat × String)
  roots : List (Nat × String)

/-- Result of the `Download` handler: `notClaimed` is the `CommandNotFound`
sentinel, `aborted` a `?`-propagated error, `done` is `Ok(CONTINUE)`. -/
inductive CmdOutcome (ε : Type) where
  | notClaimed
  | aborted (e : ε) (st : CmdSt)
  | done (st : CmdSt)

/-- The per-id loop of the `Download` handler (src/main.rs 246-268).  For each
token: parse it as a u32 (else print and continue); look the id up in the
registry and resolve from the existing record's name, or fetch the record,
push it, re-sort the registry and resolve from the fetched name; a fetch whose
JSON decode fails prints "not found" and continues.  Every
`download_mod_to_dir(...)?` error aborts the remaining ids.  `none` means a
resolution ran out of fuel. -/
def downloadLoop {ε : Type} (cenv : CmdEnv ε) (fuel : Nat) :
    List String → CmdSt → Option (CmdOutcome ε)
  | [], st => some (.done st)
  | tok :: toks, st =>
    match parseU32 tok with
    | none => downloadLoop cenv fuel toks st
    | some id =>
      match lookupDict st.dict id with
      | some m =>
        let dir := modsDir cenv.promptVersion m.name
        match download_mod_to_dir cenv.renv dir cenv.promptVersion fuel
            (initState id st.dict) with
        | none => none
        | some (.err e s) =>
          some (.aborted e ⟨st.promptCount, s.dict, st.events ++ s.dlTrace,
            st.roots ++ [(id, dir)]⟩)
        | some (.ok s) =>
          downloadLoop cenv fuel toks ⟨st.promptCount, s.dict,
            st.events ++ s.dlTrace, st.roots ++ [(id, dir)]⟩
      | none =>
        match cenv.rootFetch id with
        | .error e => some (.aborted e st)
        | .ok none => downloadLoop cenv fuel toks st
        | .ok (some m) =>
          let dir := modsDir cenv.promptVersion m.name
          let dict1 := sortById (st.dict ++ [m])
          match download_mod_to_dir cenv.renv dir cenv.promptVersion fuel
              (initState id dict1) with
          | none => none
          | some (.err e s) =>
            some (.aborted e ⟨st.promptCount, s.dict, st.events ++ s.dlTrace,
              st.roots ++ [(id, dir)]⟩)
          | some (.ok s) =>
            downloadLoop cenv fuel toks ⟨st.promptCount, s.dict,
              st.events ++ s.dlTrace, st.roots ++ [(id, dir)]⟩

/-- The `Download` handler (src/main.rs 232-274): it claims the line when it
has at least two tokens and the first is "download"; it then prompts for the
version exactly once (hence `promptCount := 1`) and runs the per-id loop. -/
def downloadCmd {ε : Type} (cenv : CmdEnv ε) (fuel : Nat) (line : List String)
    (dict : List ModInfo) : Option (CmdOutcome ε) :=
  match line with
  | [] => some .notClaimed
  | cmd :: args =>
    if cmd == "download" && !args.isEmpty then
      downloadLoop cenv fuel args ⟨1, dict, [], []⟩
    else some .notClaimed

/-- Prompt-session count of a claimed outcome (`none` for `notClaimed`). -/
def CmdOutcome.prompts {ε : Type} : CmdOutcome ε → Option Nat
  | .notClaimed => none
  | .aborted _ st => some st.promptCount
  | .done st => some st.promptCount

/-! ### The Download Executor's file write -/

/-- Modelled from the source `download` (src/main.rs 433-448): the destination
is opened with `write(true).create(true).append(false)` and WITHOUT
`truncate`, then the response body is streamed to it from offset 0 with
`io::copy`.  `old` is the pre-existing contents of the path (`none` if the
file did not exist and `create` makes an empty one); the result is the
contents after the copy: the body, followed by whatever tail of a longer
pre-existing file lies beyond the bytes written. -/
def download_write (old : Option (List Nat)) (body : List Nat) : List Nat :=
  body ++ (old.getD []).drop body.length

/-! ### Concrete scenario data -/

/-- Record builder for concrete scenarios. -/
def mkMod (i : Nat) (nm : String) (files : List VersionFileInfo) : ModInfo :=
  ⟨i, nm, "", "", 0.0, files⟩

/-- Mutual cycle: 10 and 20 each have a "1.12.2" file depending on the other. -/
def cycRec10 : ModInfo := mkMod 10 "ten" [⟨"1.12.2", 101⟩]

def cycRec20 : ModInfo := mkMod 20 "twenty" [⟨"1.12.2", 201⟩]

def cycFi10 : FileInfo := ⟨101, "u10", [], [⟨20, 3⟩], "ten.jar", 5⟩

def cycFi20 : FileInfo := ⟨201, "u20", [], [⟨10, 1⟩], "twenty.jar", 5⟩

def cycDict : List ModInfo := [cycRec10, cycRec20]

def cycEnv : Env String :=
  ⟨fun _ => .error "no addon",
   fun i f =>
     if i = 10 ∧ f = 101 then .ok cycFi10
     else if i = 20 ∧ f = 201 then .ok cycFi20
     else .error "no file",
   fun _ => .ok (), fun _ _ => .ok ()⟩

/-- Final state of the cycle resolution from root 10. -/
def cycFinal : ResolveState :=
  ⟨[], [10, 20], cycDict,
   [(10, joinPath "d" "ten.jar"), (20, joinPath "d" "twenty.jar")], []⟩

/-- Cache-miss scenario: registry holds id 5; root 3 is fetched remotely and
appended; the fetched record has no "1.12.2" file. -/
def uRec5 : ModInfo := mkMod 5 "five" [⟨"1.12.2", 51⟩]

def uRec3 : ModInfo := mkMod 3 "three" []

def uEnv : Env String :=
  ⟨fun i => if i = 3 then .ok uRec3 else .error "no addon",
   fun _ _ => .error "no file", fun _ => .ok (), fun _ _ => .ok ()⟩

def uFinal : ResolveState := ⟨[], [], [uRec5, uRec3], [], [3]⟩

/-- Stale-record scenario: the registry holds a record with id 7; resolving
root 9 fetches a record that also carries id 7 but different data. -/
def stOld : ModInfo := mkMod 7 "old" []

def stNew : ModInfo := mkMod 7 "new" [⟨"1.12.2", 71⟩]

def stEnv : Env String :=
  ⟨fun i => if i = 9 then .ok stNew else .error "no addon",
   fun _ _ => .error "no file", fun _ => .ok (), fun _ _ => .ok ()⟩

def stFinal : ResolveState := ⟨[], [], [stOld], [], [7]⟩

/-- Diamond onto a missing-version id: 1 depends on 30 and 2; 2 depends on
30; 30 has no "1.12.2" file. -/
def wRec1 : ModInfo := mkMod 1 "one" [⟨"1.12.2", 11⟩]

def wRec2 : ModInfo := mkMod 2 "two" [⟨"1.12.2", 21⟩]

def wRec30 : ModInfo := mkMod 30 "thirty" [⟨"1.14", 31⟩]

def wFi1 : FileInfo := ⟨11, "u1", [], [⟨30, 1⟩, ⟨2, 1⟩], "one.jar", 1⟩

def wFi2 : FileInfo := ⟨21, "u2", [], [⟨30, 1⟩], "two.jar", 1⟩

def wDict : List ModInfo := [wRec1, wRec2, wRec30]

def wEnv : Env String :=
  ⟨fun _ => .error "no addon",
   fun i f =>
     if i = 1 ∧ f = 11 then .ok wFi1
     else if i = 2 ∧ f = 21 then .ok wFi2
     else .error "no file",
   fun _ => .ok (), fun _ _ => .ok ()⟩

def wFinal : ResolveState :=
  ⟨[], [1, 2], wDict,
   [(1, joinPath "d" "one.jar"), (2, joinPath "d" "two.jar")], [30, 30]⟩

/-- Spec Scenario B: root 10 has only a "1.14" file, requested "1.12.2". -/
def sbRec10 : ModInfo := mkMod 10 "ten" [⟨"1.14", 1⟩]

def sbEnv : Env String :=
  ⟨fun _ => .error "no addon", fun _ _ => .error "no file",
   fun _ => .ok (), fun _ _ => .ok ()⟩

def sbFinal : ResolveState := ⟨[], [], [sbRec10], [], [10]⟩

/-- Error-propagation scenario: id 1 is nowhere, id 2's file detail fetch
fails, id 3 has no "v" file. -/
def feRec2 : ModInfo := mkMod 2 "two" [⟨"v", 21⟩]

def feRec3 : ModInfo := mkMod 3 "three" []

def feEnv : Env String :=
  ⟨fun i => if i = 1 then .error "remote unavailable" else .error "no addon",
   fun _ _ => .error "file fetch failed",
   fun _ => .ok (), fun _ _ => .ok ()⟩

/-- Trivial command environment: every root fetch decodes to nothing. -/
def cmdEnvNone : CmdEnv String :=
  ⟨sbEnv, "1.12.2", fun _ => .ok none⟩

/-- Command environment around the cycle scenario. -/
def cmdEnvCyc : CmdEnv String :=
  ⟨cycEnv, "1.12.2", fun _ => .ok none⟩

/-- Final command state of `download 10` in the cycle scenario. -/
def cycCmdFinalSt : CmdSt :=
  ⟨1, cycDict,
   [(10, joinPath (modsDir "1.12.2" "ten") "ten.jar"),
    (20, joinPath (modsDir "1.12.2" "ten") "twenty.jar")],
   [(10, modsDir "1.12.2" "ten")]⟩

/-! ### Reachability and termination measures -/

/-- The record a resolution can come to use for id `i`: the registry's entry
when one is present (registry lookups are stable: the resolver appends only
ids that are absent), else the remotely fetched record. -/
def recordFor {ε : Type} (env : Env ε) (dict0 : List ModInfo) (i : Nat) :
    Option ModInfo :=
  match lookupDict dict0 i with
  | some m => some m
  | none => (env.remoteAddon i).toOption

/-- Dependency-graph reachability as seen by one resolution rooted at `root`
over registry `dict0`: the root is reachable, and from a reachable id whose
record has a file entry for `version`, every type-1/type-3 dependency of the
fetched file detail is reachable. -/
inductive Reach {ε : Type} (env : Env ε) (version : String)
    (dict0 : List ModInfo) (root : Nat) : Nat → Prop
  | root : Reach env version dict0 root root
  | step {i : Nat} {m : ModInfo} {vf : VersionFileInfo} {fi : FileInfo}
      {d : DependencyInfo} :
      Reach env version dict0 root i →
      recordFor env dict0 i = some m →
      findFileRef m version = some vf →
      env.remoteFile i vf.project_file_id = .ok fi →
      d ∈ fi.dependencies → (d.type = 1 ∨ d.type = 3) →
      Reach env version dict0 root d.addon_id

/-- The ids of a registry. -/
def dictIds (dict : List ModInfo) : List Nat := dict.map (fun m => m.id)

/-- First termination measure: ids of the finite universe `U` not yet
downloaded. -/
def measA (U : Finset Nat) (s : ResolveState) : Nat :=
  (U \ s.downloaded.toFinset).card

/-- Second termination measure: stack entries missing from the registry,
plus the stack length. -/
def measB (s : ResolveState) : Nat :=
  (s.stack.filter (fun i => (lookupDict s.dict i).isNone)).length
    + s.stack.length

/-! ### Inversion of one loop iteration -/

/-- Exhaustive characterisation of the continuing branches of the loop body:
skip (already downloaded), soft warning (no file for the version), successful
download (trace entry, `downloaded` entry, dependency pushes), and cache-miss
fetch-then-retry (re-push `m.id`, insert only when the id is absent). -/
theorem stepResolve_next_inv {ε : Type} {env : Env ε} {dir version : String}
    {s s1 : ResolveState} (h : stepResolve env dir version s = .next s1) :
    (∃ id rest, s.stack = id :: rest ∧ id ∈ s.downloaded ∧
      s1 = { s with stack := rest }) ∨
    (∃ id rest m, s.stack = id :: rest ∧ id ∉ s.downloaded ∧
      lookupDict s.dict id = some m ∧ findFileRef m version = none ∧
      s1 = { s with stack := rest, warnTrace := s.warnTrace ++ [id] }) ∨
    (∃ id rest m vf fi, s.stack = id :: rest ∧ id ∉ s.downloaded ∧
      lookupDict s.dict id = some m ∧ findFileRef m version = some vf ∧
      env.remoteFile id vf.project_file_id = .ok fi ∧
      s1 = { stack := propagateDeps fi ++ rest,
             downloaded := s.downloaded ++ [id],
             dict := s.dict,
             dlTrace := s.dlTrace ++ [(id, joinPath dir fi.file_name_on_disk)],
             warnTrace := s.warnTrace }) ∨
    (∃ id rest m, s.stack = id :: rest ∧ id ∉ s.downloaded ∧
      lookupDict s.dict id = none ∧ env.remoteAddon id = .ok m ∧
      s1 = { s with
              stack := m.id :: rest,
              dict := if (lookupDict s.dict m.id).isSome then s.dict
                      else s.dict ++ [m] }) := by
  obtain ⟨stack, downloaded, dict, dlTrace, warnTrace⟩ := s
  cases stack with
  | nil => simp [stepResolve] at h
  | cons id rest =>
    by_cases hmem : id ∈ downloaded
    · left
      refine ⟨id, rest, rfl, hmem, ?_⟩
      simp [stepResolve, hmem] at h
      exact h.symm
    · simp only [stepResolve, hmem, if_neg, ite_false] at h
      cases hlk : lookupDict dict id with
      | none =>
        simp only [hlk] at h
        cases hra : env.remoteAddon id with
        | error e => simp only [hra] at h; simp at h
        | ok m =>
          simp only [hra] at h
          simp only [StepOut.next.injEq] at h
          exact Or.inr (Or.inr (Or.inr ⟨id, rest, m, rfl, hmem, hlk, hra, h.symm⟩))
      | some m =>
        simp only [hlk] at h
        cases hff : findFileRef m version with
        | none =>
          simp only [hff] at h
          simp only [StepOut.next.injEq] at h
          exact Or.inr (Or.inl ⟨id, rest, m, rfl, hmem, hlk, hff, h.symm⟩)
        | some vf =>
          simp only [hff] at h
          cases hcd : env.createDir dir with
          | error e => simp only [hcd] at h; simp at h
          | ok u =>
            simp only [hcd] at h
            cases hrf : env.remoteFile id vf.project_file_id with
            | error e => simp only [hrf] at h; simp at h
            | ok fi =>
              simp only [hrf] at h
              cases hdl : env.download fi (joinPath dir fi.file_name_on_disk) with
              | error e => simp only [hdl] at h; simp at h
              | ok v =>
                simp only [hdl] at h
                simp only [StepOut.next.injEq] at h
                exact Or.inr (Or.inr (Or.inl
                  ⟨id, rest, m, vf, fi, rfl, hmem, hlk, hff, hrf, h.symm⟩))

/-- Exhaustive characterisation of the halting branches: normal completion on
an empty stack, and the four `?`-propagated failures (`create_dir_all`, the
file-detail fetch, the download itself, and the cache-miss record fetch), each
returning the error unchanged. -/
theorem stepResolve_halt_inv {ε : Type} {env : Env ε} {dir version : String}
    {s : ResolveState} {r : RunResult ε}
    (h : stepResolve env dir version s = .halt r) :
    (s.stack = [] ∧ r = .ok s) ∨
    (∃ id rest m vf e, s.stack = id :: rest ∧ id ∉ s.downloaded ∧
      lookupDict s.dict id = some m ∧ findFileRef m version = some vf ∧
      env.createDir dir = .error e ∧ r = .err e s) ∨
    (∃ id rest m vf e, s.stack = id :: rest ∧ id ∉ s.downloaded ∧
      lookupDict s.dict id = some m ∧ findFileRef m version = some vf ∧
      env.remoteFile id vf.project_file_id = .error e ∧ r = .err e s) ∨
    (∃ id rest m vf fi e, s.stack = id :: rest ∧ id ∉ s.downloaded ∧
      lookupDict s.dict id = some m ∧ findFileRef m version = some vf ∧
      env.remoteFile id vf.project_file_id = .ok fi ∧
      env.download fi (joinPath dir fi.file_name_on_disk) = .error e ∧
      r = .err e { s with
        dlTrace := s.dlTrace ++ [(id, joinPath dir fi.file_name_on_disk)] }) ∨
    (∃ id rest e, s.stack = id :: rest ∧ id ∉ s.downloaded ∧
      lookupDict s.dict id = none ∧ env.remoteAddon id = .error e ∧
      r = .err e s) := by
  obtain ⟨stack, downloaded, dict, dlTrace, warnTrace⟩ := s
  cases stack with
  | nil =>
    simp only [stepResolve, StepOut.halt.injEq] at h
    exact Or.inl ⟨rfl, h.symm⟩
  | cons id rest =>
    by_cases hmem : id ∈ downloaded
    · simp [stepResolve, hmem] at h
    · simp only [stepResolve, hmem, if_neg, ite_false] at h
      cases hlk : lookupDict dict id with
      | none =>
        simp only [hlk] at h
        cases hra : env.remoteAddon id with
        | error e =>
          simp only [hra] at h
          simp only [StepOut.halt.injEq] at h
          exact Or.inr (Or.inr (Or.inr (Or.inr
            ⟨id, rest, e, rfl, hmem, hlk, hra, h.symm⟩)))
        | ok m => simp only [hra] at h; simp at h
      | some m =>
        simp only [hlk] at h
        cases hff : findFileRef m version with
        | none => simp only [hff] at h; simp at h
        | some vf =>
          simp only [hff] at h
          cases hcd : env.createDir dir with
          | error e =>
            simp only [hcd] at h
            simp only [StepOut.halt.injEq] at h
            exact Or.inr (Or.inl ⟨id, rest, m, vf, e, rfl, hmem, hlk, hff, rfl, h.symm⟩)
          | ok u =>
            simp only [hcd] at h
            cases hrf : env.remoteFile id vf.project_file_id with
            | error e =>
              simp only [hrf] at h
              simp only [StepOut.halt.injEq] at h
              exact Or.inr (Or.inr (Or.inl
                ⟨id, rest, m, vf, e, rfl, hmem, hlk, hff, hrf, h.symm⟩))
            | ok fi =>
              simp only [hrf] at h
              cases hdl : env.download fi (joinPath dir fi.file_name_on_disk) with
              | error e =>
                simp only [hdl] at h
                simp only [StepOut.halt.injEq] at h
                exact Or.inr (Or.inr (Or.inr (Or.inl
                  ⟨id, rest, m, vf, fi, e, rfl, hmem, hlk, hff, hrf, hdl, h.symm⟩)))
              | ok v => simp only [hdl] at h; simp at h

/-- Generic invariant runner: if `P` is preserved by every continuing step and
turns into `Q` at every halting step, then every finished run from a `P`-state
satisfies `Q`. -/
theorem run_preserve {ε : Type} (env : Env ε) (dir version : String)
    (P : ResolveState → Prop) (Q : RunResult ε → Prop)
    (hnext : ∀ s s1, P s → stepResolve env dir version s = .next s1 → P s1)
    (hhalt : ∀ s r, P s → stepResolve env dir version s = .halt r → Q r) :
    ∀ fuel s r, P s → download_mod_to_dir env dir version fuel s = some r → Q r := by
  intro fuel
  induction fuel with
  | zero => intro s r _ h; simp [download_mod_to_dir] at h
  | succ n ih =>
    intro s r hP h
    rw [download_mod_to_dir] at h
    cases hstep : stepResolve env dir version s with
    | halt r0 =>
      rw [hstep] at h
      simp only [Option.some.injEq] at h
      exact h ▸ hhalt s r0 hP hstep
    | next s1 =>
      rw [hstep] at h
      exact ih s1 r (hnext s s1 hP hstep) h

/-! ### Forward characterisation of single iterations -/

theorem stepResolve_skip {ε : Type} {env : Env ε} {dir version : String}
    {s : ResolveState} {id : Nat} {rest : List Nat}
    (hstack : s.stack = id :: rest) (hmem : id ∈ s.downloaded) :
    stepResolve env dir version s = .next { s with stack := rest } := by
  simp [stepResolve, hstack, hmem]

theorem stepResolve_warn {ε : Type} {env : Env ε} {dir version : String}
    {s : ResolveState} {id : Nat} {rest : List Nat} {m : ModInfo}
    (hstack : s.stack = id :: rest) (hmem : id ∉ s.downloaded)
    (hlk : lookupDict s.dict id = some m) (hff : findFileRef m version = none) :
    stepResolve env dir version s =
      .next { s with stack := rest, warnTrace := s.warnTrace ++ [id] } := by
  simp [stepResolve, hstack, hmem, hlk, hff]

theorem stepResolve_download {ε : Type} {env : Env ε} {dir version : String}
    {s : ResolveState} {id : Nat} {rest : List Nat} {m : ModInfo}
    {vf : VersionFileInfo} {fi : FileInfo}
    (hstack : s.stack = id :: rest) (hmem : id ∉ s.downloaded)
    (hlk : lookupDict s.dict id = some m) (hff : findFileRef m version = some vf)
    (hcd : env.createDir dir = .ok ())
    (hrf : env.remoteFile id vf.project_file_id = .ok fi)
    (hdl : env.download fi (joinPath dir fi.file_name_on_disk) = .ok ()) :
    stepResolve env dir version s =
      .next { stack := propagateDeps fi ++ rest,
              downloaded := s.downloaded ++ [id],
              dict := s.dict,
              dlTrace := s.dlTrace ++ [(id, joinPath dir fi.file_name_on_disk)],
              warnTrace := s.warnTrace } := by
  simp [stepResolve, hstack, hmem, hlk, hff, hcd, hrf, hdl]

theorem stepResolve_cachemiss_ok {ε : Type} {env : Env ε} {dir version : String}
    {s : ResolveState} {id : Nat} {rest : List Nat} {m : ModInfo}
    (hstack : s.stack = id :: rest) (hmem : id ∉ s.downloaded)
    (hlk : lookupDict s.dict id = none) (hra : env.remoteAddon id = .ok m) :
    stepResolve env dir version s =
      .next { s with
              stack := m.id :: rest,
              dict := if (lookupDict s.dict m.id).isSome then s.dict
                      else s.dict ++ [m] } := by
  simp [stepResolve, hstack, hmem, hlk, hra]

theorem stepResolve_cachemiss_err {ε : Type} {env : Env ε} {dir version : String}
    {s : ResolveState} {id : Nat} {rest : List Nat} {e : ε}
    (hstack : s.stack = id :: rest) (hmem : id ∉ s.downloaded)
    (hlk : lookupDict s.dict id = none) (hra : env.remoteAddon id = .error e) :
    stepResolve env dir version s = .halt (.err e s) := by
  simp [stepResolve, hstack, hmem, hlk, hra]

theorem stepResolve_file_err {ε : Type} {env : Env ε} {dir version : String}
    {s : ResolveState} {id : Nat} {rest : List Nat} {m : ModInfo}
    {vf : VersionFileInfo} {e : ε}
    (hstack : s.stack = id :: rest) (hmem : id ∉ s.downloaded)
    (hlk : lookupDict s.dict id = some m) (hff : findFileRef m version = some vf)
    (hcd : env.createDir dir = .ok ())
    (hrf : env.remoteFile id vf.project_file_id = .error e) :
    stepResolve env dir version s = .halt (.err e s) := by
  simp [stepResolve, hstack, hmem, hlk, hff, hcd, hrf]

/-- Unfolding one loop iteration of the fuel-indexed loop. -/
theorem download_mod_to_dir_succ {ε : Type} (env : Env ε) (dir version : String)
    (fuel : Nat) (s : ResolveState) :
    download_mod_to_dir env dir version (fuel + 1) s =
      match stepResolve env dir version s with
      | .halt r => some r
      | .next s1 => download_mod_to_dir env dir version fuel s1 := rfl

/-- C7: a failed Catalog-Client call inside a resolution (the `/addon/{id}`
fetch on cache miss, or the `/addon/{id}/file/{fileId}` file-detail fetch)
makes the whole `download_mod_to_dir` call return `Err` with that very error
value, whereas the missing-version case is a soft warning: the loop goes on
and the rest of the stack is processed exactly as if the resolution had been
started on it. -/
theorem catalog_error_aborts_warning_continues {ε : Type} (env : Env ε)
    (dir version : String) :
    (∀ fuel s id rest e, s.stack = id :: rest → id ∉ s.downloaded →
      lookupDict s.dict id = none → env.remoteAddon id = .error e →
      download_mod_to_dir env dir version (fuel + 1) s = some (.err e s)) ∧
    (∀ fuel s id rest m vf e, s.stack = id :: rest → id ∉ s.downloaded →
      lookupDict s.dict id = some m → findFileRef m version = some vf →
      env.createDir dir = .ok () → env.remoteFile id vf.project_file_id = .error e →
      download_mod_to_dir env dir version (fuel + 1) s = some (.err e s)) ∧
    (∀ fuel s id rest m, s.stack = id :: rest → id ∉ s.downloaded →
      lookupDict s.dict id = some m → findFileRef m version = none →
      download_mod_to_dir env dir version (fuel + 1) s =
        download_mod_to_dir env dir version fuel
          { s with stack := rest, warnTrace := s.warnTrace ++ [id] }) := by
  refine ⟨?_, ?_, ?_⟩
  · intro fuel s id rest e hstack hmem hlk hra
    rw [download_mod_to_dir_succ, stepResolve_cachemiss_err hstack hmem hlk hra]
  · intro fuel s id rest m vf e hstack hmem hlk hff hcd hrf
    rw [download_mod_to_dir_succ, stepResolve_file_err hstack hmem hlk hff hcd hrf]
  · intro fuel s id rest m hstack hmem hlk hff
    rw [download_mod_to_dir_succ, stepResolve_warn hstack hmem hlk hff]

/-- Witness for the error-propagation/continuation theorem at concrete
inputs: the cache-miss fetch failure and the file-detail fetch failure abort
with the error value itself; a missing-version id is consumed with one
warning and the loop goes on. -/
theorem catalog_error_aborts_warning_continues_witness :
    download_mod_to_dir feEnv "d" "v" 1 (initState 1 []) =
      some (.err "remote unavailable" (initState 1 [])) ∧
    download_mod_to_dir feEnv "d" "v" 1 (initState 2 [feRec2, feRec3]) =
      some (.err "file fetch failed" (initState 2 [feRec2, feRec3])) ∧
    download_mod_to_dir feEnv "d" "v" 1 (initState 3 [feRec2, feRec3]) =
      download_mod_to_dir feEnv "d" "v" 0 ⟨[], [], [feRec2, feRec3], [], [3]⟩ := by
  refine ⟨?_, ?_, ?_⟩
  · exact (catalog_error_aborts_warning_continues feEnv "d" "v").1 0
      (initState 1 []) 1 [] "remote unavailable" rfl (by decide) rfl rfl
  · exact (catalog_error_aborts_warning_continues feEnv "d" "v").2.1 0
      (initState 2 [feRec2, feRec3]) 2 [] feRec2 ⟨"v", 21⟩ "file fetch failed"
      rfl (by decide) rfl rfl rfl rfl
  · exact (catalog_error_aborts_warning_continues feEnv "d" "v").2.2 0
      (initState 3 [feRec2, feRec3]) 3 [] feRec3 rfl (by decide) rfl rfl

/-! ### Registry lookup facts -/

theorem lookupDict_append_some {dict : List ModInfo} {i : Nat} {m0 : ModInfo}
    (m : ModInfo) (h : lookupDict dict i = some m0) :
    lookupDict (dict ++ [m]) i = some m0 := by
  simp [lookupDict, List.find?_append] at *
  exact Or.inl h

theorem lookupDict_mem_id {dict : List ModInfo} {i : Nat} {m : ModInfo}
    (h : lookupDict dict i = some m) : m ∈ dict ∧ m.id = i := by
  refine ⟨List.mem_of_find?_eq_some h, ?_⟩
  have := List.find?_some h
  simpa using this

theorem lookupDict_eq_none_iff {dict : List ModInfo} {i : Nat} :
    lookupDict dict i = none ↔ ∀ m ∈ dict, m.id ≠ i := by
  simp [lookupDict, List.find?_eq_none]

/-- Registry lookups are stable across the resolver's conditional cache-miss
insertion. -/
theorem lookupDict_condInsert_some {dict : List ModInfo} {i : Nat}
    {m0 : ModInfo} (m : ModInfo) (h : lookupDict dict i = some m0) :
    lookupDict (if (lookupDict dict m.id).isSome then dict else dict ++ [m]) i
      = some m0 := by
  split
  · exact h
  · exact lookupDict_append_some m h

theorem dlIds_append (s : ResolveState) (id : Nat) (p : String) :
    dlIds { s with dlTrace := s.dlTrace ++ [(id, p)] } = dlIds s ++ [id] := by
  simp [dlIds]

/-- C3: version filtering is an exact-match test.  (1) If the initial registry
record for an id has no file entry whose `game_version` equals the requested
version, no download for that id happens anywhere in the resolution; (2) the
missing-version iteration leaves the stack exactly the popped remainder — in
particular none of the mod's dependencies is pushed; (3) matching is exact
string equality, not substring containment: a "1.12.2" entry does not match a
requested "1.12". -/
theorem version_filtering :
    (∀ (ε : Type) (env : Env ε) (dir version : String) (fuel : Nat)
      (dict0 : List ModInfo) (root i : Nat) (mrec : ModInfo) (r : RunResult ε),
      lookupDict dict0 i = some mrec → findFileRef mrec version = none →
      download_mod_to_dir env dir version fuel (initState root dict0) = some r →
      i ∉ dlIds r.state) ∧
    (∀ (ε : Type) (env : Env ε) (dir version : String) (s : ResolveState)
      (id : Nat) (rest : List Nat) (m : ModInfo),
      s.stack = id :: rest → id ∉ s.downloaded →
      lookupDict s.dict id = some m → findFileRef m version = none →
      stepResolve env dir version s =
        .next { s with stack := rest, warnTrace := s.warnTrace ++ [id] }) ∧
    (findFileRef (mkMod 1 "x" [⟨"1.12.2", 5⟩]) "1.12" = none ∧
     findFileRef (mkMod 1 "x" [⟨"1.12.2", 5⟩]) "1.12.2" = some ⟨"1.12.2", 5⟩) := by
  refine ⟨?_, ?_, by decide, by decide⟩
  · intro ε env dir version fuel dict0 root i mrec r hlk0 hff0 hrun
    have key : ∀ (dict : List ModInfo) (j : Nat) (m : ModInfo)
        (vf : VersionFileInfo), lookupDict dict i = some mrec →
        lookupDict dict j = some m → findFileRef m version = some vf →
        i ≠ j := by
      intro dict j m vf h1 h2 hvf heq
      subst heq
      rw [h1] at h2
      cases h2
      rw [hff0] at hvf
      cases hvf
    have main := run_preserve env dir version
      (fun s => lookupDict s.dict i = some mrec ∧ i ∉ s.downloaded ∧
        i ∉ dlIds s)
      (fun r => i ∉ dlIds r.state)
      ?_ ?_ fuel (initState root dict0) r ⟨hlk0, by simp [initState], by simp [dlIds, initState]⟩ hrun
    · exact main
    · intro s s1 hP hstep
      rcases stepResolve_next_inv hstep with
        ⟨id, rest, hstack, hmem, hs1⟩ |
        ⟨id, rest, m, hstack, hmem, hlk, hff, hs1⟩ |
        ⟨id, rest, m, vf, fi, hstack, hmem, hlk, hff, hrf, hs1⟩ |
        ⟨id, rest, m, hstack, hmem, hlk, hra, hs1⟩
      · subst hs1; exact hP
      · subst hs1; exact hP
      · subst hs1
        have hne : i ≠ id := key s.dict id m vf hP.1 hlk hff
        refine ⟨hP.1, ?_, ?_⟩
        · simp only [List.mem_append, List.mem_singleton]
          rintro (h | h)
          · exact hP.2.1 h
          · exact hne h
        · simp only [dlIds, List.map_append, List.mem_append] at *
          rintro (h | h)
          · exact hP.2.2 (by simpa [dlIds] using h)
          · simp at h; exact hne h
      · subst hs1
        exact ⟨lookupDict_condInsert_some m hP.1, hP.2.1, hP.2.2⟩
    · intro s r hP hstep
      rcases stepResolve_halt_inv hstep with
        ⟨hstack, hr⟩ |
        ⟨id, rest, m, vf, e, hstack, hmem, hlk, hff, hcd, hr⟩ |
        ⟨id, rest, m, vf, e, hstack, hmem, hlk, hff, hrf, hr⟩ |
        ⟨id, rest, m, vf, fi, e, hstack, hmem, hlk, hff, hrf, hdl, hr⟩ |
        ⟨id, rest, e, hstack, hmem, hlk, hra, hr⟩
      · subst hr; exact hP.2.2
      · subst hr; exact hP.2.2
      · subst hr; exact hP.2.2
      · subst hr
        have hne : i ≠ id := key s.dict id m vf hP.1 hlk hff
        simp only [RunResult.state, dlIds, List.map_append, List.mem_append]
        rintro (h | h)
        · exact hP.2.2 (by simpa [dlIds] using h)
        · simp at h; exact hne h
      · subst hr; exact hP.2.2
  · intro ε env dir version s id rest m hstack hmem hlk hff
    exact stepResolve_warn hstack hmem hlk hff

/-- Witness: spec Scenario B — root 10 has only a "1.14" file and "1.12.2" is
requested; no download happened for id 10. -/
theorem version_filtering_witness :
    (10 : Nat) ∉ dlIds ((RunResult.ok sbFinal : RunResult String).state) :=
  version_filtering.1 String sbEnv "d" "1.12.2" 2 [sbRec10] 10 10 sbRec10
    (.ok sbFinal) rfl rfl rfl

/-! ### Registry uniqueness and sortedness -/

/-- C4 counterexample: the resolver's cache-miss insertion appends without
re-sorting.  Starting from the sorted one-record registry `[id 5]`, resolving
root id 3 (a cache miss whose fetch succeeds) leaves the registry `[5, 3]`,
which is not sorted in ascending id order. -/
theorem registry_sorted_cex :
    (download_mod_to_dir uEnv "d" "1.12.2" 5 (initState 3 [uRec5])).map
      (fun r => r.state.dict.map (fun m => m.id)) = some [5, 3] ∧
    ¬ List.Sorted (fun a b : Nat => a ≤ b) [5, 3] := by
  refine ⟨rfl, ?_⟩
  simp [List.Sorted]

theorem sortById_perm (l : List ModInfo) : (sortById l).Perm l :=
  List.mergeSort_perm l _

theorem sortById_sorted (l : List ModInfo) :
    List.Sorted (fun a b : Nat => a ≤ b) ((sortById l).map (fun m => m.id)) := by
  have h := @List.sorted_mergeSort ModInfo
    (fun a b : ModInfo => decide (a.id ≤ b.id))
    (fun a b c hab hbc => by
      simp only [decide_eq_true_eq] at *
      omega)
    (fun a b => by
      simp only [Bool.or_eq_true, decide_eq_true_eq]
      omega) l
  rw [List.Sorted, List.pairwise_map]
  exact h.imp (fun hab => by simpa using hab)

theorem nodup_ids_append {dict : List ModInfo} {m : ModInfo}
    (h : (dictIds dict).Nodup) (hnone : lookupDict dict m.id = none) :
    (dictIds (dict ++ [m])).Nodup := by
  have hmem : m.id ∉ dictIds dict := by
    rw [lookupDict_eq_none_iff] at hnone
    simp only [dictIds, List.mem_map]
    rintro ⟨x, hx, hid⟩
    exact hnone x hx hid
  simp only [dictIds, List.map_append, List.map_cons, List.map_nil]
  rw [List.nodup_append]
  refine ⟨h, List.nodup_singleton _, ?_⟩
  intro a ha hb
  simp only [List.mem_singleton] at hb
  subst hb
  exact hmem (by simpa [dictIds] using ha)

theorem searchInsert_nodup :
    ∀ (fetched dict : List ModInfo), (dictIds dict).Nodup →
      (dictIds (searchInsert dict fetched)).Nodup := by
  intro fetched
  induction fetched with
  | nil => intro dict h; simpa [searchInsert] using h
  | cons m fs ih =>
    intro dict h
    have hstep : searchInsert dict (m :: fs) =
        searchInsert (if (lookupDict dict m.id).isSome then dict
          else dict ++ [m]) fs := rfl
    rw [hstep]
    apply ih
    split
    · exact h
    · rename_i hsome
      exact nodup_ids_append h (by
        cases hlk : lookupDict dict m.id with
        | none => rfl
        | some x => rw [hlk] at hsome; simp at hsome)

/-- The resolver's run preserves id-uniqueness of the registry: its only
insertion is guarded by a lookup miss. -/
theorem run_dict_nodup {ε : Type} (env : Env ε) (dir version : String)
    (fuel : Nat) (s : ResolveState) (r : RunResult ε)
    (hrun : download_mod_to_dir env dir version fuel s = some r)
    (hnd : (dictIds s.dict).Nodup) : (dictIds r.state.dict).Nodup := by
  refine run_preserve env dir version
    (fun s => (dictIds s.dict).Nodup)
    (fun r => (dictIds r.state.dict).Nodup) ?_ ?_ fuel s r hnd hrun
  · intro s s1 hP hstep
    rcases stepResolve_next_inv hstep with
      ⟨id, rest, hstack, hmem, hs1⟩ |
      ⟨id, rest, m, hstack, hmem, hlk, hff, hs1⟩ |
      ⟨id, rest, m, vf, fi, hstack, hmem, hlk, hff, hrf, hs1⟩ |
      ⟨id, rest, m, hstack, hmem, hlk, hra, hs1⟩
    · subst hs1; exact hP
    · subst hs1; exact hP
    · subst hs1; exact hP
    · subst hs1
      simp only
      split
      · exact hP
      · rename_i hsome
        refine nodup_ids_append hP ?_
        cases hlk2 : lookupDict s.dict m.id with
        | none => rfl
        | some x => rw [hlk2] at hsome; simp at hsome
  · intro s r hP hstep
    rcases stepResolve_halt_inv hstep with
      ⟨hstack, hr⟩ |
      ⟨id, rest, m, vf, e, hstack, hmem, hlk, hff, hcd, hr⟩ |
      ⟨id, rest, m, vf, e, hstack, hmem, hlk, hff, hrf, hr⟩ |
      ⟨id, rest, m, vf, fi, e, hstack, hmem, hlk, hff, hrf, hdl, hr⟩ |
      ⟨id, rest, e, hstack, hmem, hlk, hra, hr⟩ <;> subst hr <;> exact hP

/-- The per-id loop of the `download` handler preserves id-uniqueness of the
registry, given the catalog contract that a fetched root record carries the
requested id: its unconditional `dict.push` (src/main.rs 259) happens only
after a lookup miss of that id. -/
theorem downloadLoop_nodup {ε : Type} (cenv : CmdEnv ε) (fuel : Nat)
    (hroot : ∀ i m, cenv.rootFetch i = .ok (some m) → m.id = i) :
    ∀ (toks : List String) (st : CmdSt) (o : CmdOutcome ε) (st' : CmdSt),
      downloadLoop cenv fuel toks st = some o →
      (o = .done st' ∨ ∃ e, o = .aborted e st') →
      (dictIds st.dict).Nodup → (dictIds st'.dict).Nodup := by
  intro toks
  induction toks with
  | nil =>
    intro st o st' h ho hnd
    simp only [downloadLoop, Option.some.injEq] at h
    subst h
    rcases ho with ho | ⟨e, ho⟩
    · cases ho; exact hnd
    · cases ho
  | cons tok toks ih =>
    intro st o st' h ho hnd
    rw [downloadLoop] at h
    cases hp : parseU32 tok with
    | none =>
      simp only [hp] at h
      exact ih st o st' h ho hnd
    | some id =>
      simp only [hp] at h
      cases hlk : lookupDict st.dict id with
      | some m =>
        simp only [hlk] at h
        cases hrun : download_mod_to_dir cenv.renv
            (modsDir cenv.promptVersion m.name) cenv.promptVersion fuel
            (initState id st.dict) with
        | none => simp [hrun] at h
        | some rr =>
          have hnd1 : (dictIds rr.state.dict).Nodup :=
            run_dict_nodup cenv.renv (modsDir cenv.promptVersion m.name)
              cenv.promptVersion fuel (initState id st.dict) rr hrun hnd
          cases rr with
          | err e s =>
            simp only [hrun, Option.some.injEq] at h
            subst h
            rcases ho with ho | ⟨e1, ho⟩
            · cases ho
            · cases ho
              exact hnd1
          | ok s =>
            simp only [hrun] at h
            exact ih _ o st' h ho hnd1
      | none =>
        simp only [hlk] at h
        cases hrf : cenv.rootFetch id with
        | error e =>
          simp only [hrf, Option.some.injEq] at h
          subst h
          rcases ho with ho | ⟨e1, ho⟩
          · cases ho
          · cases ho
            exact hnd
        | ok om =>
          cases om with
          | none =>
            simp only [hrf] at h
            exact ih st o st' h ho hnd
          | some m =>
            simp only [hrf] at h
            have hmid : m.id = id := hroot id m hrf
            have hnda : (dictIds (st.dict ++ [m])).Nodup :=
              nodup_ids_append hnd (by rw [hmid]; exact hlk)
            have hnds : (dictIds (sortById (st.dict ++ [m]))).Nodup := by
              have hperm := (sortById_perm (st.dict ++ [m])).map
                (fun m : ModInfo => m.id)
              exact (List.Perm.nodup_iff hperm).mpr hnda
            cases hrun : download_mod_to_dir cenv.renv
                (modsDir cenv.promptVersion m.name) cenv.promptVersion fuel
                (initState id (sortById (st.dict ++ [m]))) with
            | none => simp [hrun] at h
            | some rr =>
              have hnd1 : (dictIds rr.state.dict).Nodup :=
                run_dict_nodup cenv.renv (modsDir cenv.promptVersion m.name)
                  cenv.promptVersion fuel
                  (initState id (sortById (st.dict ++ [m]))) rr hrun hnds
              cases rr with
              | err e s =>
                simp only [hrun, Option.some.injEq] at h
                subst h
                rcases ho with ho | ⟨e1, ho⟩
                · cases ho
                · cases ho
                  exact hnd1
              | ok s =>
                simp only [hrun] at h
                exact ih _ o st' h ho hnd1

/-- C4 amended: after every registry-mutating operation the registry keeps at
most one record per id, given the catalog contract that a fetched record
carries the requested id — (1) a whole resolver run preserves uniqueness (its
cache-miss insertion is insert-if-absent); (2) the `search`/`print` mutation
(insert-if-absent, then `sort_by_key`) preserves uniqueness and leaves the
registry sorted by id; (3) `update`/`clear` empties the registry, which is
unique and sorted; (4) the `download` handler — whose own root insertion is an
unconditional push-then-sort after a lookup miss of the requested id —
preserves uniqueness across the whole command under that contract.
Sortedness, however, is NOT restored by the resolver's cache-miss insertion
(it appends at the end without re-sorting), so the registry need not be
sorted by id after a resolution (see the counterexample). -/
theorem registry_uniqueness :
    (∀ (ε : Type) (env : Env ε) (dir version : String) (fuel : Nat)
      (s : ResolveState) (r : RunResult ε),
      (dictIds s.dict).Nodup →
      download_mod_to_dir env dir version fuel s = some r →
      (dictIds r.state.dict).Nodup) ∧
    (∀ dict fetched : List ModInfo,
      List.Sorted (fun a b : Nat => a ≤ b)
        ((searchCmdDict dict fetched).map (fun m => m.id)) ∧
      ((dictIds dict).Nodup → (dictIds (searchCmdDict dict fetched)).Nodup)) ∧
    ((dictIds clearDict).Nodup ∧
      List.Sorted (fun a b : Nat => a ≤ b) (clearDict.map (fun m => m.id))) ∧
    (∀ (ε : Type) (cenv : CmdEnv ε) (fuel : Nat) (line : List String)
      (dict0 : List ModInfo) (o : CmdOutcome ε) (st : CmdSt),
      (∀ i m, cenv.rootFetch i = .ok (some m) → m.id = i) →
      downloadCmd cenv fuel line dict0 = some o →
      (o = .done st ∨ ∃ e, o = .aborted e st) →
      (dictIds dict0).Nodup → (dictIds st.dict).Nodup) := by
  refine ⟨?_, ?_, ⟨List.nodup_nil, List.sorted_nil⟩, ?_⟩
  · intro ε env dir version fuel s r hnd hrun
    exact run_dict_nodup env dir version fuel s r hrun hnd
  · intro dict fetched
    refine ⟨sortById_sorted _, fun h => ?_⟩
    have hperm := (sortById_perm (searchInsert dict fetched)).map
      (fun m : ModInfo => m.id)
    exact (List.Perm.nodup_iff hperm).mpr (searchInsert_nodup fetched dict h)
  · intro ε cenv fuel line dict0 o st hroot h ho hnd
    cases line with
    | nil =>
      simp only [downloadCmd, Option.some.injEq] at h
      subst h
      rcases ho with ho | ⟨e, ho⟩ <;> cases ho
    | cons cmd args =>
      rw [downloadCmd] at h
      by_cases hcond : (cmd == "download" && !args.isEmpty) = true
      · rw [if_pos hcond] at h
        exact downloadLoop_nodup cenv fuel hroot args ⟨1, dict0, [], []⟩ o st
          h ho hnd
      · rw [if_neg hcond] at h
        simp only [Option.some.injEq] at h
        subst h
        rcases ho with ho | ⟨e, ho⟩ <;> cases ho

/-- Witness for the uniqueness theorem: the cache-miss resolver run, a
concrete search mutation (sorted and unique), and the download command over
the cycle registry all end with duplicate-free registry ids. -/
theorem registry_uniqueness_witness :
    (dictIds ((RunResult.ok uFinal : RunResult String).state.dict)).Nodup ∧
    List.Sorted (fun a b : Nat => a ≤ b)
      ((searchCmdDict [uRec5] [uRec3]).map (fun m => m.id)) ∧
    (dictIds (searchCmdDict [uRec5] [uRec3])).Nodup ∧
    (dictIds cycCmdFinalSt.dict).Nodup :=
  ⟨registry_uniqueness.1 String uEnv "d" "1.12.2" 5 (initState 3 [uRec5])
      (.ok uFinal) (by decide) rfl,
   (registry_uniqueness.2.1 [uRec5] [uRec3]).1,
   (registry_uniqueness.2.1 [uRec5] [uRec3]).2 (by decide),
   registry_uniqueness.2.2.2 String cmdEnvCyc 6 ["download", "10"] cycDict
     (.done cycCmdFinalSt) cycCmdFinalSt
     (by intro i m hm; simp [cmdEnvCyc] at hm) rfl (Or.inl rfl) (by decide)⟩

/-! ### Cache-miss insertion semantics -/

/-- C5 counterexample: the cache-miss insertion is insert-if-absent, not
replace-or-insert.  Resolving root 9 fetches a record that carries id 7 and
name "new"; the registry already holds a record with id 7 and name "old";
after the resolution the registry still holds the stale record unchanged and
the fetched one was discarded. -/
theorem upsert_replaces_cex :
    stEnv.remoteAddon 9 = .ok stNew ∧ stNew.id = 7 ∧ stNew.name = "new" ∧
    (download_mod_to_dir stEnv "d" "1.12.2" 5 (initState 9 [stOld])).map
      (fun r => r.state.dict.map (fun m => (m.id, m.name))) =
      some [(7, "old")] ∧
    ("old" : String) ≠ "new" := by
  exact ⟨rfl, rfl, rfl, rfl, by decide⟩

/-- C5 amended: on a cache miss the resolver inserts the fetched record only
when no record with its id is present; an existing record with that id is
kept unchanged and the fetched record is discarded.  Consequently (1) every
record present in the initial registry is still found, unchanged, by every
later lookup of its id — records are never partially overwritten — and
(2) every record of the final registry is either an initial record or a
complete record returned by the remote catalog. -/
theorem cache_insert_keeps_stale :
    ∀ (ε : Type) (env : Env ε) (dir version : String) (fuel : Nat)
      (s0 : ResolveState) (r : RunResult ε),
      download_mod_to_dir env dir version fuel s0 = some r →
      (∀ i m0, lookupDict s0.dict i = some m0 →
        lookupDict r.state.dict i = some m0) ∧
      (∀ m, m ∈ r.state.dict → m ∈ s0.dict ∨ ∃ i, env.remoteAddon i = .ok m) := by
  intro ε env dir version fuel s0 r hrun
  refine run_preserve env dir version
    (fun s => (∀ i m0, lookupDict s0.dict i = some m0 →
        lookupDict s.dict i = some m0) ∧
      (∀ m, m ∈ s.dict → m ∈ s0.dict ∨ ∃ i, env.remoteAddon i = .ok m))
    (fun r => (∀ i m0, lookupDict s0.dict i = some m0 →
        lookupDict r.state.dict i = some m0) ∧
      (∀ m, m ∈ r.state.dict → m ∈ s0.dict ∨ ∃ i, env.remoteAddon i = .ok m))
    ?_ ?_ fuel s0 r ⟨fun _ _ h => h, fun m hm => Or.inl hm⟩ hrun
  · intro s s1 hP hstep
    rcases stepResolve_next_inv hstep with
      ⟨id, rest, hstack, hmem, hs1⟩ |
      ⟨id, rest, m, hstack, hmem, hlk, hff, hs1⟩ |
      ⟨id, rest, m, vf, fi, hstack, hmem, hlk, hff, hrf, hs1⟩ |
      ⟨id, rest, m, hstack, hmem, hlk, hra, hs1⟩
    · subst hs1; exact hP
    · subst hs1; exact hP
    · subst hs1; exact hP
    · subst hs1
      constructor
      · intro i m0 h0
        exact lookupDict_condInsert_some m (hP.1 i m0 h0)
      · intro x hx
        simp only at hx
        split at hx
        · exact hP.2 x hx
        · rcases List.mem_append.mp hx with h | h
          · exact hP.2 x h
          · simp only [List.mem_singleton] at h
            subst h
            exact Or.inr ⟨id, hra⟩
  · intro s r hP hstep
    rcases stepResolve_halt_inv hstep with
      ⟨hstack, hr⟩ |
      ⟨id, rest, m, vf, e, hstack, hmem, hlk, hff, hcd, hr⟩ |
      ⟨id, rest, m, vf, e, hstack, hmem, hlk, hff, hrf, hr⟩ |
      ⟨id, rest, m, vf, fi, e, hstack, hmem, hlk, hff, hrf, hdl, hr⟩ |
      ⟨id, rest, e, hstack, hmem, hlk, hra, hr⟩ <;> subst hr <;> exact hP

/-- Witness: in the stale-record scenario the initial id-7 record is still
found unchanged after the resolution. -/
theorem cache_insert_keeps_stale_witness :
    lookupDict ((RunResult.ok stFinal : RunResult String).state).dict 7 =
      some stOld :=
  (cache_insert_keeps_stale String stEnv "d" "1.12.2" 5 (initState 9 [stOld])
    (.ok stFinal) rfl).1 7 stOld rfl

/-! ### The missing-version warning and the visited set -/

/-- C6 counterexample: the missing-version branch does not add the id to the
visited set, so the check and its warning can fire several times for one id.
In the diamond scenario (1 and 2 both depend on 30, which has no "1.12.2"
file) the warning for id 30 is recorded twice and 30 is never added to
`downloaded`. -/
theorem warn_visited_cex :
    (download_mod_to_dir wEnv "d" "1.12.2" 9 (initState 1 wDict)).map
      (fun r => (r.state.warnTrace, r.state.downloaded)) =
      some ([30, 30], [1, 2]) ∧
    ¬ ([30, 30] : List Nat).Nodup ∧ (30 : Nat) ∉ ([1, 2] : List Nat) := by
  exact ⟨rfl, by decide, by decide⟩

/-- C6 amended: the missing-version branch records the warning but does not
add the id to the visited set; the check and warning therefore recur on every
pop of such an id.  What does hold: an id that was ever warned about is never
downloaded in that resolution. -/
theorem warned_ids_never_downloaded :
    ∀ (ε : Type) (env : Env ε) (dir version : String) (fuel : Nat)
      (root : Nat) (dict0 : List ModInfo) (r : RunResult ε),
      download_mod_to_dir env dir version fuel (initState root dict0) = some r →
      ∀ i, i ∈ r.state.warnTrace → i ∉ dlIds r.state := by
  intro ε env dir version fuel root dict0 r hrun
  have key : ∀ (dict : List ModInfo) (i j : Nat) (mi mj : ModInfo)
      (vf : VersionFileInfo), lookupDict dict i = some mi →
      findFileRef mi version = none → lookupDict dict j = some mj →
      findFileRef mj version = some vf → i ≠ j := by
    intro dict i j mi mj vf h1 hn h2 hs heq
    subst heq
    rw [h1] at h2
    cases h2
    rw [hn] at hs
    cases hs
  have main := run_preserve env dir version
    (fun s => dlIds s = s.downloaded ∧
      ∀ i, i ∈ s.warnTrace →
        (∃ m, lookupDict s.dict i = some m ∧ findFileRef m version = none) ∧
        i ∉ s.downloaded)
    (fun r => ∀ i, i ∈ r.state.warnTrace → i ∉ dlIds r.state)
    ?_ ?_ fuel (initState root dict0) r
    ⟨by simp [dlIds, initState], by simp [initState]⟩ hrun
  · exact main
  · intro s s1 hP hstep
    rcases stepResolve_next_inv hstep with
      ⟨id, rest, hstack, hmem, hs1⟩ |
      ⟨id, rest, m, hstack, hmem, hlk, hff, hs1⟩ |
      ⟨id, rest, m, vf, fi, hstack, hmem, hlk, hff, hrf, hs1⟩ |
      ⟨id, rest, m, hstack, hmem, hlk, hra, hs1⟩
    · subst hs1; exact hP
    · subst hs1
      refine ⟨hP.1, ?_⟩
      intro i hi
      simp only [List.mem_append, List.mem_singleton] at hi
      rcases hi with hi | hi
      · exact hP.2 i hi
      · subst hi
        exact ⟨⟨m, hlk, hff⟩, hmem⟩
    · subst hs1
      constructor
      · have h1 := hP.1
        simp only [dlIds] at h1 ⊢
        simp [h1]
      · intro i hi
        obtain ⟨⟨mi, hlki, hffi⟩, hnd⟩ := hP.2 i hi
        have hne : i ≠ id := key s.dict i id mi m vf hlki hffi hlk hff
        refine ⟨⟨mi, hlki, hffi⟩, ?_⟩
        simp only [List.mem_append, List.mem_singleton]
        rintro (h | h)
        · exact hnd h
        · exact hne h
    · subst hs1
      refine ⟨hP.1, ?_⟩
      intro i hi
      obtain ⟨⟨mi, hlki, hffi⟩, hnd⟩ := hP.2 i hi
      exact ⟨⟨mi, lookupDict_condInsert_some m hlki, hffi⟩, hnd⟩
  · intro s r hP hstep
    have base : ∀ i, i ∈ s.warnTrace → i ∉ dlIds s := by
      intro i hi
      rw [hP.1]
      exact (hP.2 i hi).2
    rcases stepResolve_halt_inv hstep with
      ⟨hstack, hr⟩ |
      ⟨id, rest, m, vf, e, hstack, hmem, hlk, hff, hcd, hr⟩ |
      ⟨id, rest, m, vf, e, hstack, hmem, hlk, hff, hrf, hr⟩ |
      ⟨id, rest, m, vf, fi, e, hstack, hmem, hlk, hff, hrf, hdl, hr⟩ |
      ⟨id, rest, e, hstack, hmem, hlk, hra, hr⟩
    · subst hr; exact base
    · subst hr; exact base
    · subst hr; exact base
    · subst hr
      intro i hi
      obtain ⟨⟨mi, hlki, hffi⟩, hnd⟩ := hP.2 i hi
      have hne : i ≠ id := key s.dict i id mi m vf hlki hffi hlk hff
      simp only [RunResult.state, dlIds, List.map_append, List.mem_append]
      rintro (h | h)
      · exact (base i hi) (by simpa [dlIds] using h)
      · simp at h; exact hne h
    · subst hr; exact base

/-- Witness: in the diamond scenario id 30 was warned about (twice) and was
indeed never downloaded. -/
theorem warned_ids_never_downloaded_witness :
    (30 : Nat) ∈ wFinal.warnTrace ∧
    (30 : Nat) ∉ dlIds ((RunResult.ok wFinal : RunResult String).state) :=
  ⟨by decide,
   warned_ids_never_downloaded String wEnv "d" "1.12.2" 9 1 wDict
     (.ok wFinal) rfl 30 (by decide)⟩

/-! ### The Download Executor's write mode -/

/-- C8 (code bug): the destination file is opened for write without truncate
(src/main.rs 445 has `write(true).create(true).append(false)` and no
`truncate`), so streaming a 2-byte body over a pre-existing 4-byte file
leaves the old tail: the contents are `[2,2,1,1]`, not the streamed `[2,2]`.
(When the file did not exist, the contents are exactly the body.) -/
theorem download_no_truncate :
    download_write none [2, 2] = [2, 2] ∧
    download_write (some [1, 1, 1, 1]) [2, 2] = [2, 2, 1, 1] ∧
    ([2, 2, 1, 1] : List Nat) ≠ [2, 2] := by
  exact ⟨rfl, rfl, by decide⟩

/-! ### The download command's version prompt -/

/-- The per-id loop never touches the prompt count established before it. -/
theorem downloadLoop_prompts {ε : Type} (cenv : CmdEnv ε) (fuel : Nat) :
    ∀ (toks : List String) (st : CmdSt) (o : CmdOutcome ε),
      downloadLoop cenv fuel toks st = some o →
      o.prompts = some st.promptCount := by
  intro toks
  induction toks with
  | nil =>
    intro st o h
    simp only [downloadLoop, Option.some.injEq] at h
    subst h
    rfl
  | cons tok toks ih =>
    intro st o h
    rw [downloadLoop] at h
    cases hp : parseU32 tok with
    | none =>
      simp only [hp] at h
      exact ih st o h
    | some id =>
      simp only [hp] at h
      cases hlk : lookupDict st.dict id with
      | some m =>
        simp only [hlk] at h
        cases hrun : download_mod_to_dir cenv.renv
            (modsDir cenv.promptVersion m.name) cenv.promptVersion fuel
            (initState id st.dict) with
        | none => simp [hrun] at h
        | some rr =>
          cases rr with
          | err e s =>
            simp only [hrun, Option.some.injEq] at h
            subst h
            rfl
          | ok s =>
            simp only [hrun] at h
            have hh := ih _ o h
            exact hh
      | none =>
        simp only [hlk] at h
        cases hrf : cenv.rootFetch id with
        | error e =>
          simp only [hrf, Option.some.injEq] at h
          subst h
          rfl
        | ok om =>
          cases om with
          | none =>
            simp only [hrf] at h
            exact ih st o h
          | some m =>
            simp only [hrf] at h
            cases hrun : download_mod_to_dir cenv.renv
                (modsDir cenv.promptVersion m.name) cenv.promptVersion fuel
                (initState id (sortById (st.dict ++ [m]))) with
            | none => simp [hrun] at h
            | some rr =>
              cases rr with
              | err e s =>
                simp only [hrun, Option.some.injEq] at h
                subst h
                rfl
              | ok s =>
                simp only [hrun] at h
                have hh := ih _ o h
                exact hh

/-- C9 counterexample: `download 1 2 3` has three id arguments but the
version prompt happens exactly once (before the loop over the ids), not once
per id. -/
theorem prompt_per_id_cex :
    (downloadCmd cmdEnvNone 1 ["download", "1", "2", "3"] []).map
      (fun o => o.prompts) = some (some 1) ∧
    (["1", "2", "3"] : List String).length = 3 ∧ (1 : Nat) ≠ 3 := by
  exact ⟨rfl, rfl, by decide⟩

/-- C9 amended: the `download` handler prompts for the target version exactly
once per command invocation, before resolving any id; the same version is
then used for every id argument. -/
theorem prompt_once_per_command :
    ∀ (ε : Type) (cenv : CmdEnv ε) (fuel : Nat) (args : List String)
      (dict : List ModInfo) (o : CmdOutcome ε),
      args ≠ [] →
      downloadCmd cenv fuel ("download" :: args) dict = some o →
      o.prompts = some 1 := by
  intro ε cenv fuel args dict o hne h
  rw [downloadCmd] at h
  have hcond : ("download" == "download" && !args.isEmpty) = true := by
    cases args with
    | nil => exact absurd rfl hne
    | cons a as => rfl
  rw [if_pos hcond] at h
  exact downloadLoop_prompts cenv fuel args ⟨1, dict, [], []⟩ o h

/-- Witness: a one-id download command yields a claimed outcome whose prompt
count is one. -/
theorem prompt_once_per_command_witness :
    CmdOutcome.prompts (ε := String)
      (.done ⟨1, ([] : List ModInfo), [], []⟩) = some 1 :=
  prompt_once_per_command String cmdEnvNone 1 ["7"] []
    (.done ⟨1, [], [], []⟩) (by simp) rfl

/-! ### Destination directories -/

/-- The resolver never removes a registry record. -/
theorem run_dict_mem_mono {ε : Type} (env : Env ε) (dir version : String)
    (fuel : Nat) (s0 : ResolveState) (r : RunResult ε)
    (hrun : download_mod_to_dir env dir version fuel s0 = some r) :
    ∀ x, x ∈ s0.dict → x ∈ r.state.dict := by
  refine run_preserve env dir version
    (fun s => ∀ x, x ∈ s0.dict → x ∈ s.dict)
    (fun r => ∀ x, x ∈ s0.dict → x ∈ r.state.dict)
    ?_ ?_ fuel s0 r (fun x hx => hx) hrun
  · intro s s1 hP hstep
    rcases stepResolve_next_inv hstep with
      ⟨id, rest, hstack, hmem, hs1⟩ |
      ⟨id, rest, m, hstack, hmem, hlk, hff, hs1⟩ |
      ⟨id, rest, m, vf, fi, hstack, hmem, hlk, hff, hrf, hs1⟩ |
      ⟨id, rest, m, hstack, hmem, hlk, hra, hs1⟩
    · subst hs1; exact hP
    · subst hs1; exact hP
    · subst hs1; exact hP
    · subst hs1
      intro x hx
      simp only
      split
      · exact hP x hx
      · exact List.mem_append_left _ (hP x hx)
  · intro s r hP hstep
    rcases stepResolve_halt_inv hstep with
      ⟨hstack, hr⟩ |
      ⟨id, rest, m, vf, e, hstack, hmem, hlk, hff, hcd, hr⟩ |
      ⟨id, rest, m, vf, e, hstack, hmem, hlk, hff, hrf, hr⟩ |
      ⟨id, rest, m, vf, fi, e, hstack, hmem, hlk, hff, hrf, hdl, hr⟩ |
      ⟨id, rest, e, hstack, hmem, hlk, hra, hr⟩ <;> subst hr <;> exact hP

/-- Every download invocation of one resolution writes under the single
directory the resolution was started with. -/
theorem run_trace_dir {ε : Type} (env : Env ε) (dir version : String)
    (fuel : Nat) (s0 : ResolveState) (r : RunResult ε)
    (hrun : download_mod_to_dir env dir version fuel s0 = some r)
    (hbase : ∀ e ∈ s0.dlTrace, ∃ fn, e.2 = joinPath dir fn) :
    ∀ e ∈ r.state.dlTrace, ∃ fn, e.2 = joinPath dir fn := by
  refine run_preserve env dir version
    (fun s => ∀ e ∈ s.dlTrace, ∃ fn, e.2 = joinPath dir fn)
    (fun r => ∀ e ∈ r.state.dlTrace, ∃ fn, e.2 = joinPath dir fn)
    ?_ ?_ fuel s0 r hbase hrun
  · intro s s1 hP hstep
    rcases stepResolve_next_inv hstep with
      ⟨id, rest, hstack, hmem, hs1⟩ |
      ⟨id, rest, m, hstack, hmem, hlk, hff, hs1⟩ |
      ⟨id, rest, m, vf, fi, hstack, hmem, hlk, hff, hrf, hs1⟩ |
      ⟨id, rest, m, hstack, hmem, hlk, hra, hs1⟩
    · subst hs1; exact hP
    · subst hs1; exact hP
    · subst hs1
      intro e he
      rcases List.mem_append.mp he with h | h
      · exact hP e h
      · simp only [List.mem_singleton] at h
        subst h
        exact ⟨fi.file_name_on_disk, rfl⟩
    · subst hs1; exact hP
  · intro s r hP hstep
    rcases stepResolve_halt_inv hstep with
      ⟨hstack, hr⟩ |
      ⟨id, rest, m, vf, e0, hstack, hmem, hlk, hff, hcd, hr⟩ |
      ⟨id, rest, m, vf, e0, hstack, hmem, hlk, hff, hrf, hr⟩ |
      ⟨id, rest, m, vf, fi, e0, hstack, hmem, hlk, hff, hrf, hdl, hr⟩ |
      ⟨id, rest, e0, hstack, hmem, hlk, hra, hr⟩
    · subst hr; exact hP
    · subst hr; exact hP
    · subst hr; exact hP
    · subst hr
      intro e he
      rcases List.mem_append.mp he with h | h
      · exact hP e h
      · simp only [List.mem_singleton] at h
        subst h
        exact ⟨fi.file_name_on_disk, rfl⟩
    · subst hr; exact hP

/-- Invariant of the per-id loop: each started resolution is rooted at a
registry record and aimed at `./mods/<version>/<name of that record>`, and
every accumulated download event lies under the directory of one of the
started resolutions. -/
theorem downloadLoop_dest {ε : Type} (cenv : CmdEnv ε) (fuel : Nat)
    (hroot : ∀ i m, cenv.rootFetch i = .ok (some m) → m.id = i) :
    ∀ (toks : List String) (st : CmdSt) (o : CmdOutcome ε) (st' : CmdSt),
      downloadLoop cenv fuel toks st = some o →
      (o = .done st' ∨ ∃ e, o = .aborted e st') →
      ((∀ p ∈ st.roots, ∃ m, m ∈ st.dict ∧ m.id = p.1 ∧
          p.2 = modsDir cenv.promptVersion m.name) ∧
        (∀ ev ∈ st.events, ∃ idr d fn, (idr, d) ∈ st.roots ∧
          ev.2 = joinPath d fn)) →
      (∀ p ∈ st'.roots, ∃ m, m ∈ st'.dict ∧ m.id = p.1 ∧
          p.2 = modsDir cenv.promptVersion m.name) ∧
        (∀ ev ∈ st'.events, ∃ idr d fn, (idr, d) ∈ st'.roots ∧
          ev.2 = joinPath d fn) := by
  intro toks
  induction toks with
  | nil =>
    intro st o st' h ho hInv
    simp only [downloadLoop, Option.some.injEq] at h
    subst h
    rcases ho with ho | ⟨e, ho⟩
    · cases ho; exact hInv
    · cases ho
  | cons tok toks ih =>
    intro st o st' h ho hInv
    have push : ∀ (d0 : List ModInfo) (id : Nat) (mm : ModInfo)
        (rr : RunResult ε),
        mm ∈ d0 → mm.id = id → (∀ x, x ∈ st.dict → x ∈ d0) →
        download_mod_to_dir cenv.renv (modsDir cenv.promptVersion mm.name)
          cenv.promptVersion fuel (initState id d0) = some rr →
        (∀ p ∈ (st.roots ++ [(id, modsDir cenv.promptVersion mm.name)]),
            ∃ m, m ∈ rr.state.dict ∧ m.id = p.1 ∧
              p.2 = modsDir cenv.promptVersion m.name) ∧
          (∀ ev ∈ (st.events ++ rr.state.dlTrace),
            ∃ idr d fn,
              (idr, d) ∈ (st.roots ++ [(id, modsDir cenv.promptVersion mm.name)]) ∧
              ev.2 = joinPath d fn) := by
      intro d0 id mm rr hmm hmmid hsub hrun
      have hmono := run_dict_mem_mono cenv.renv
        (modsDir cenv.promptVersion mm.name) cenv.promptVersion fuel
        (initState id d0) rr hrun
      have htr := run_trace_dir cenv.renv
        (modsDir cenv.promptVersion mm.name) cenv.promptVersion fuel
        (initState id d0) rr hrun (by simp [initState])
      constructor
      · intro p hp
        rcases List.mem_append.mp hp with hp | hp
        · obtain ⟨m1, hm1, hid1, hdir1⟩ := hInv.1 p hp
          exact ⟨m1, hmono m1 (hsub m1 hm1), hid1, hdir1⟩
        · simp only [List.mem_singleton] at hp
          subst hp
          exact ⟨mm, hmono mm (by simpa [initState] using hmm), hmmid, rfl⟩
      · intro ev hev
        rcases List.mem_append.mp hev with hev | hev
        · obtain ⟨idr, d, fn, hrr, hpath⟩ := hInv.2 ev hev
          exact ⟨idr, d, fn, List.mem_append_left _ hrr, hpath⟩
        · obtain ⟨fn, hfn⟩ := htr ev hev
          exact ⟨id, modsDir cenv.promptVersion mm.name, fn,
            List.mem_append_right _ (by simp), hfn⟩
    rw [downloadLoop] at h
    cases hp : parseU32 tok with
    | none =>
      simp only [hp] at h
      exact ih st o st' h ho hInv
    | some id =>
      simp only [hp] at h
      cases hlk : lookupDict st.dict id with
      | some m =>
        simp only [hlk] at h
        obtain ⟨hmmem, hmid⟩ := lookupDict_mem_id hlk
        cases hrun : download_mod_to_dir cenv.renv
            (modsDir cenv.promptVersion m.name) cenv.promptVersion fuel
            (initState id st.dict) with
        | none => simp [hrun] at h
        | some rr =>
          have hstep := push st.dict id m rr hmmem hmid (fun x hx => hx) hrun
          cases rr with
          | err e s =>
            simp only [hrun, Option.some.injEq] at h
            subst h
            rcases ho with ho | ⟨e1, ho⟩
            · cases ho
            · cases ho
              exact hstep
          | ok s =>
            simp only [hrun] at h
            exact ih _ o st' h ho hstep
      | none =>
        simp only [hlk] at h
        cases hrf : cenv.rootFetch id with
        | error e =>
          simp only [hrf, Option.some.injEq] at h
          subst h
          rcases ho with ho | ⟨e1, ho⟩
          · cases ho
          · cases ho
            exact hInv
        | ok om =>
          cases om with
          | none =>
            simp only [hrf] at h
            exact ih st o st' h ho hInv
          | some m =>
            simp only [hrf] at h
            have hmid := hroot id m hrf
            have hmem1 : m ∈ sortById (st.dict ++ [m]) :=
              (sortById_perm _).mem_iff.mpr (List.mem_append_right _ (by simp))
            have hsub1 : ∀ x, x ∈ st.dict → x ∈ sortById (st.dict ++ [m]) :=
              fun x hx => (sortById_perm _).mem_iff.mpr
                (List.mem_append_left _ hx)
            cases hrun : download_mod_to_dir cenv.renv
                (modsDir cenv.promptVersion m.name) cenv.promptVersion fuel
                (initState id (sortById (st.dict ++ [m]))) with
            | none => simp [hrun] at h
            | some rr =>
              have hstep := push (sortById (st.dict ++ [m])) id m rr
                hmem1 hmid hsub1 hrun
              cases rr with
              | err e s =>
                simp only [hrun, Option.some.injEq] at h
                subst h
                rcases ho with ho | ⟨e1, ho⟩
                · cases ho
                · cases ho
                  exact hstep
              | ok s =>
                simp only [hrun] at h
                exact ih _ o st' h ho hstep

/-! ### At-most-once download -/

theorem nodup_append_one {l : List Nat} {x : Nat} (h : l.Nodup) (hx : x ∉ l) :
    (l ++ [x]).Nodup := by
  rw [List.nodup_append]
  refine ⟨h, List.nodup_singleton _, ?_⟩
  intro a ha hb
  simp only [List.mem_singleton] at hb
  subst hb
  exact hx ha

theorem mem_propagateDeps {fi : FileInfo} {j : Nat} (h : j ∈ propagateDeps fi) :
    ∃ d, d ∈ fi.dependencies ∧ (d.type = 1 ∨ d.type = 3) ∧ d.addon_id = j := by
  simp only [propagateDeps, List.mem_reverse, List.mem_map,
    List.mem_filter] at h
  obtain ⟨d, ⟨hd, ht⟩, hj⟩ := h
  refine ⟨d, hd, ?_, hj⟩
  simpa using ht

theorem lookup_append_some_elim {dict : List ModInfo} {m mi : ModInfo} {i : Nat}
    (h : lookupDict (dict ++ [m]) i = some mi) :
    lookupDict dict i = some mi ∨
      (lookupDict dict i = none ∧ mi = m ∧ m.id = i) := by
  rw [lookupDict, List.find?_append] at h
  cases hfd : lookupDict dict i with
  | some x =>
    have hfd2 : List.find? (fun mm => mm.id == i) dict = some x := hfd
    rw [hfd2] at h
    simp only [Option.or] at h
    left
    exact h
  | none =>
    have hfd2 : List.find? (fun mm => mm.id == i) dict = none := hfd
    rw [hfd2] at h
    simp only [Option.or] at h
    right
    by_cases hb : (m.id == i) = true
    · simp only [List.find?, hb] at h
      refine ⟨rfl, ?_, by simpa using hb⟩
      cases h
      rfl
    · simp only [List.find?, hb] at h
      cases h

/-- C1: the file-download operation is invoked at most once per id, and at
most N times where N bounds the number of ids reachable from the root —
however many duplicate dependency edges (diamonds, cycles) reference the same
id.  Stated for catalogs whose `/addon/{id}` endpoint returns the record with
the requested id (the spec's "id: unique, stable, assigned by the remote
catalog"), for any finished run (normal or aborted): the trace of `download`
invocations has no duplicate id, and its length is at most the cardinality of
any finite set containing every reachable id. -/
theorem download_at_most_once :
    ∀ (ε : Type) (env : Env ε) (dir version : String) (fuel : Nat)
      (root : Nat) (dict0 : List ModInfo) (r : RunResult ε) (S : Finset Nat),
      (∀ i m, env.remoteAddon i = .ok m → m.id = i) →
      (∀ i, Reach env version dict0 root i → i ∈ S) →
      download_mod_to_dir env dir version fuel (initState root dict0) = some r →
      (dlIds r.state).Nodup ∧ (dlIds r.state).length ≤ S.card := by
  intro ε env dir version fuel root dict0 r S hrem hS hrun
  have hinit : dlIds (initState root dict0) = (initState root dict0).downloaded ∧
      (initState root dict0).downloaded.Nodup ∧
      (∀ i, i ∈ (initState root dict0).stack →
        Reach env version dict0 root i) ∧
      (∀ i, i ∈ (initState root dict0).downloaded →
        Reach env version dict0 root i) ∧
      (∀ i m, lookupDict (initState root dict0).dict i = some m →
        recordFor env dict0 i = some m) ∧
      (∀ i m, lookupDict dict0 i = some m →
        lookupDict (initState root dict0).dict i = some m) := by
    refine ⟨rfl, List.nodup_nil, ?_, ?_, ?_, ?_⟩
    · intro i hi
      have hi2 : i = root := by
        simpa [initState] using hi
      subst hi2
      exact Reach.root
    · intro i hi
      simp [initState] at hi
    · intro i m h
      have h2 : lookupDict dict0 i = some m := h
      unfold recordFor
      rw [h2]
    · intro i m h
      exact h
  have main := run_preserve env dir version
    (fun s =>
      dlIds s = s.downloaded ∧
      s.downloaded.Nodup ∧
      (∀ i, i ∈ s.stack → Reach env version dict0 root i) ∧
      (∀ i, i ∈ s.downloaded → Reach env version dict0 root i) ∧
      (∀ i m, lookupDict s.dict i = some m →
        recordFor env dict0 i = some m) ∧
      (∀ i m, lookupDict dict0 i = some m → lookupDict s.dict i = some m))
    (fun r => (dlIds r.state).Nodup ∧
      ∀ i, i ∈ dlIds r.state → Reach env version dict0 root i)
    ?_ ?_ fuel (initState root dict0) r hinit hrun
  · obtain ⟨hnd, hmem⟩ := main
    refine ⟨hnd, ?_⟩
    have hsub : (dlIds r.state).toFinset ⊆ S := by
      intro x hx
      rw [List.mem_toFinset] at hx
      exact hS x (hmem x hx)
    calc (dlIds r.state).length = (dlIds r.state).toFinset.card :=
          (List.toFinset_card_of_nodup hnd).symm
      _ ≤ S.card := Finset.card_le_card hsub
  · intro s s1 hP hstep
    obtain ⟨hI1, hI2, hI3, hI4, hI5, hI6⟩ := hP
    rcases stepResolve_next_inv hstep with
      ⟨id, rest, hstack, hmem, hs1⟩ |
      ⟨id, rest, m, hstack, hmem, hlk, hff, hs1⟩ |
      ⟨id, rest, m, vf, fi, hstack, hmem, hlk, hff, hrf, hs1⟩ |
      ⟨id, rest, m, hstack, hmem, hlk, hra, hs1⟩
    · subst hs1
      refine ⟨hI1, hI2, ?_, hI4, hI5, hI6⟩
      intro i hi
      apply hI3
      rw [hstack]
      exact List.mem_cons_of_mem id hi
    · subst hs1
      refine ⟨hI1, hI2, ?_, hI4, hI5, hI6⟩
      intro i hi
      apply hI3
      rw [hstack]
      exact List.mem_cons_of_mem id hi
    · subst hs1
      have hReachId : Reach env version dict0 root id := by
        apply hI3
        rw [hstack]
        exact List.mem_cons_self id rest
      refine ⟨?_, nodup_append_one hI2 hmem, ?_, ?_, hI5, hI6⟩
      · show dlIds { s with
            stack := propagateDeps fi ++ rest,
            downloaded := s.downloaded ++ [id],
            dlTrace := s.dlTrace ++ [(id, joinPath dir fi.file_name_on_disk)] }
          = s.downloaded ++ [id]
        simp only [dlIds, List.map_append]
        simp only [dlIds] at hI1
        simp [hI1]
      · intro i hi
        rcases List.mem_append.mp hi with hi | hi
        · obtain ⟨d, hd, ht, hj⟩ := mem_propagateDeps hi
          subst hj
          exact Reach.step hReachId (hI5 id m hlk) hff hrf hd ht
        · apply hI3
          rw [hstack]
          exact List.mem_cons_of_mem id hi
      · intro i hi
        rcases List.mem_append.mp hi with hi | hi
        · exact hI4 i hi
        · have hi2 : i = id := by simpa using hi
          subst hi2
          exact hReachId
    · subst hs1
      have hmid : m.id = id := hrem id m hra
      refine ⟨hI1, hI2, ?_, hI4, ?_, ?_⟩
      · intro i hi
        rcases List.mem_cons.mp hi with hi | hi
        · subst hi
          rw [hmid]
          apply hI3
          rw [hstack]
          exact List.mem_cons_self id rest
        · apply hI3
          rw [hstack]
          exact List.mem_cons_of_mem id hi
      · intro i mi hlki
        simp only at hlki
        split at hlki
        · exact hI5 i mi hlki
        · rcases lookup_append_some_elim hlki with h | ⟨hn, hmi, hii⟩
          · exact hI5 i mi h
          · subst hmi
            have hid : i = id := by rw [← hii, hmid]
            subst hid
            have hd0 : lookupDict dict0 i = none := by
              cases hx : lookupDict dict0 i with
              | none => rfl
              | some mm =>
                have h6 := hI6 i mm hx
                rw [hlk] at h6
                cases h6
            unfold recordFor
            rw [hd0, hra]
            rfl
      · intro i mi h0
        exact lookupDict_condInsert_some m (hI6 i mi h0)
  · intro s r0 hP hstep
    obtain ⟨hI1, hI2, hI3, hI4, hI5, hI6⟩ := hP
    have base : (dlIds s).Nodup ∧
        ∀ i, i ∈ dlIds s → Reach env version dict0 root i := by
      rw [hI1]
      exact ⟨hI2, hI4⟩
    rcases stepResolve_halt_inv hstep with
      ⟨hstack, hr⟩ |
      ⟨id, rest, m, vf, e, hstack, hmem, hlk, hff, hcd, hr⟩ |
      ⟨id, rest, m, vf, e, hstack, hmem, hlk, hff, hrf, hr⟩ |
      ⟨id, rest, m, vf, fi, e, hstack, hmem, hlk, hff, hrf, hdl, hr⟩ |
      ⟨id, rest, e, hstack, hmem, hlk, hra, hr⟩
    · subst hr; exact base
    · subst hr; exact base
    · subst hr; exact base
    · subst hr
      have hReachId : Reach env version dict0 root id := by
        apply hI3
        rw [hstack]
        exact List.mem_cons_self id rest
      constructor
      · show (dlIds { s with
            dlTrace := s.dlTrace ++ [(id, joinPath dir fi.file_name_on_disk)] }).Nodup
        rw [dlIds_append]
        refine nodup_append_one base.1 ?_
        rw [hI1]
        exact hmem
      · intro i hi
        have hi2 : i ∈ dlIds s ++ [id] := by
          rw [← dlIds_append]
          exact hi
        rcases List.mem_append.mp hi2 with hi3 | hi3
        · exact base.2 i hi3
        · have hi4 : i = id := by simpa using hi3
          subst hi4
          exact hReachId
    · subst hr; exact base

/-- Witness: the mutual cycle 10 ⇄ 20 — every reachable id lies in
`{10, 20}`, and the run's download trace is duplicate-free with length at
most 2. -/
theorem download_at_most_once_witness :
    (dlIds ((RunResult.ok cycFinal : RunResult String).state)).Nodup ∧
    (dlIds ((RunResult.ok cycFinal : RunResult String).state)).length ≤
      ({10, 20} : Finset Nat).card := by
  refine download_at_most_once String cycEnv "d" "1.12.2" 6 10 cycDict
    (.ok cycFinal) {10, 20} ?_ ?_ rfl
  · intro i m h
    simp [cycEnv] at h
  · intro i hi
    induction hi with
    | root => decide
    | step hR hrec hvf hrf hd ht ih =>
      rename_i i m vf fi d
      have hi2 : i = 10 ∨ i = 20 := by
        simpa using ih
      rcases hi2 with hi2 | hi2
      · subst hi2
        rw [show recordFor cycEnv cycDict 10 = some cycRec10 from rfl] at hrec
        cases hrec
        rw [show findFileRef cycRec10 "1.12.2" =
          some (⟨"1.12.2", 101⟩ : VersionFileInfo) from rfl] at hvf
        cases hvf
        rw [show cycEnv.remoteFile 10
          (VersionFileInfo.project_file_id ⟨"1.12.2", 101⟩) =
          Except.ok cycFi10 from rfl] at hrf
        cases hrf
        rw [show cycFi10.dependencies =
          [(⟨20, 3⟩ : DependencyInfo)] from rfl] at hd
        simp only [List.mem_singleton] at hd
        subst hd
        decide
      · subst hi2
        rw [show recordFor cycEnv cycDict 20 = some cycRec20 from rfl] at hrec
        cases hrec
        rw [show findFileRef cycRec20 "1.12.2" =
          some (⟨"1.12.2", 201⟩ : VersionFileInfo) from rfl] at hvf
        cases hvf
        rw [show cycEnv.remoteFile 20
          (VersionFileInfo.project_file_id ⟨"1.12.2", 201⟩) =
          Except.ok cycFi20 from rfl] at hrf
        cases hrf
        rw [show cycFi20.dependencies =
          [(⟨10, 1⟩ : DependencyInfo)] from rfl] at hd
        simp only [List.mem_singleton] at hd
        subst hd
        decide

/-! ### Termination of the resolution loop -/

theorem filter_length_le_cons (p : Nat → Bool) (x : Nat) (l : List Nat) :
    (l.filter p).length ≤ ((x :: l).filter p).length := by
  rw [List.filter_cons]
  split
  · exact Nat.le_succ _
  · exact Nat.le_refl _

theorem filter_length_le_of_imp {p q : Nat → Bool} (l : List Nat)
    (h : ∀ j, p j = true → q j = true) :
    (l.filter p).length ≤ (l.filter q).length := by
  induction l with
  | nil => simp
  | cons x xs ih =>
    rw [List.filter_cons, List.filter_cons]
    by_cases hx : p x = true
    · rw [if_pos hx, if_pos (h x hx)]
      simpa using ih
    · rw [if_neg hx]
      split
      · exact Nat.le_succ_of_le ih
      · exact ih

theorem lookup_append_none {dict : List ModInfo} {m : ModInfo} {i : Nat}
    (h : lookupDict (dict ++ [m]) i = none) : lookupDict dict i = none := by
  cases hfd : lookupDict dict i with
  | none => rfl
  | some x =>
    rw [lookupDict, List.find?_append] at h
    rw [lookupDict] at hfd
    rw [hfd] at h
    simp [Option.or] at h

/-- Every loop iteration either halts or strictly decreases the lexicographic
measure `(measA, measB)`, provided every id the remote can return lies in the
finite universe `U` and the registry's ids stay inside `U`. -/
theorem step_progress {ε : Type} (env : Env ε) (dir version : String)
    (U : Finset Nat) (hU : ∀ i m, env.remoteAddon i = .ok m → m.id ∈ U)
    (s : ResolveState) (hInv : ∀ x ∈ s.dict, x.id ∈ U) :
    (∃ r, stepResolve env dir version s = .halt r) ∨
    (∃ s1, stepResolve env dir version s = .next s1 ∧
      (∀ x ∈ s1.dict, x.id ∈ U) ∧
      (measA U s1 < measA U s ∨
        (measA U s1 = measA U s ∧ measB s1 < measB s))) := by
  obtain ⟨stack, downloaded, dict, dlTrace, warnTrace⟩ := s
  cases stack with
  | nil =>
    exact Or.inl ⟨.ok ⟨[], downloaded, dict, dlTrace, warnTrace⟩,
      by simp [stepResolve]⟩
  | cons id rest =>
    by_cases hmem : id ∈ downloaded
    · refine Or.inr ⟨_, stepResolve_skip rfl hmem, hInv, Or.inr ⟨rfl, ?_⟩⟩
      simp only [measB]
      have h1 := filter_length_le_cons
        (fun i => (lookupDict dict i).isNone) id rest
      simp only [List.length_cons]
      omega
    · cases hlk : lookupDict dict id with
      | some m =>
        cases hff : findFileRef m version with
        | none =>
          refine Or.inr ⟨_, stepResolve_warn rfl hmem hlk hff, hInv,
            Or.inr ⟨rfl, ?_⟩⟩
          simp only [measB]
          have h1 := filter_length_le_cons
            (fun i => (lookupDict dict i).isNone) id rest
          simp only [List.length_cons]
          omega
        | some vf =>
          cases hcd : env.createDir dir with
          | error e =>
            exact Or.inl
              ⟨.err e ⟨id :: rest, downloaded, dict, dlTrace, warnTrace⟩,
                by simp [stepResolve, hmem, hlk, hff, hcd]⟩
          | ok u =>
            cases u
            cases hrf : env.remoteFile id vf.project_file_id with
            | error e =>
              exact Or.inl ⟨.err e _, stepResolve_file_err rfl hmem hlk hff hcd hrf⟩
            | ok fi =>
              cases hdl : env.download fi (joinPath dir fi.file_name_on_disk) with
              | error e =>
                exact Or.inl ⟨.err e ⟨id :: rest, downloaded, dict,
                    dlTrace ++ [(id, joinPath dir fi.file_name_on_disk)],
                    warnTrace⟩,
                  by simp [stepResolve, hmem, hlk, hff, hcd, hrf, hdl]⟩
              | ok v =>
                cases v
                refine Or.inr ⟨_, stepResolve_download rfl hmem hlk hff hcd hrf hdl,
                  hInv, Or.inl ?_⟩
                obtain ⟨hm, hmid⟩ := lookupDict_mem_id hlk
                have hidU : id ∈ U := hmid ▸ hInv m hm
                simp only [measA]
                have hset : (downloaded ++ [id]).toFinset =
                    downloaded.toFinset ∪ {id} := by
                  simp [List.toFinset_append]
                rw [hset]
                have hsub : U \ (downloaded.toFinset ∪ {id}) ⊆
                    U \ downloaded.toFinset :=
                  Finset.sdiff_subset_sdiff (Finset.Subset.refl U)
                    Finset.subset_union_left
                refine Finset.card_lt_card
                  ((Finset.ssubset_iff_of_subset hsub).mpr ?_)
                refine ⟨id, Finset.mem_sdiff.mpr ⟨hidU, by simpa using hmem⟩, ?_⟩
                simp
      | none =>
        cases hra : env.remoteAddon id with
        | error e => exact Or.inl ⟨_, stepResolve_cachemiss_err rfl hmem hlk hra⟩
        | ok m =>
          refine Or.inr ⟨_, stepResolve_cachemiss_ok rfl hmem hlk hra, ?_,
            Or.inr ⟨rfl, ?_⟩⟩
          · intro x hx
            simp only at hx
            split at hx
            · exact hInv x hx
            · rcases List.mem_append.mp hx with h | h
              · exact hInv x h
              · simp only [List.mem_singleton] at h
                subst h
                exact hU id x hra
          · simp only [measB]
            set dict1 := if (lookupDict dict m.id).isSome then dict
              else dict ++ [m] with hdict1
            have hnoneCase : ¬ (lookupDict dict m.id).isSome = true →
                lookupDict dict m.id = none := by
              intro hns
              cases hx : lookupDict dict m.id with
              | none => rfl
              | some y => rw [hx] at hns; simp at hns
            have hA : (lookupDict dict1 m.id).isSome = true := by
              rw [hdict1]
              split
              · assumption
              · rename_i hns
                have h0 := hnoneCase hns
                rw [lookupDict, List.find?_append]
                rw [lookupDict] at h0
                rw [h0]
                simp [List.find?]
            have hB : ∀ j, (lookupDict dict1 j).isNone = true →
                (lookupDict dict j).isNone = true := by
              intro j hj
              rw [Option.isNone_iff_eq_none] at hj ⊢
              rw [hdict1] at hj
              revert hj
              split
              · exact fun h => h
              · exact fun h => lookup_append_none h
            have hfilp : List.filter (fun j => (lookupDict dict1 j).isNone)
                (m.id :: rest)
                = List.filter (fun j => (lookupDict dict1 j).isNone) rest := by
              rw [List.filter_cons, if_neg]
              intro hn
              cases hx : lookupDict dict1 m.id with
              | none => rw [hx] at hA; simp at hA
              | some y => rw [hx] at hn; simp at hn
            have hfilq : List.filter (fun j => (lookupDict dict j).isNone)
                (id :: rest)
                = id :: List.filter (fun j => (lookupDict dict j).isNone) rest := by
              rw [List.filter_cons, if_pos]
              rw [hlk]
              rfl
            rw [hfilp, hfilq]
            have h2 := filter_length_le_of_imp
              (p := fun j => (lookupDict dict1 j).isNone)
              (q := fun j => (lookupDict dict j).isNone) rest hB
            simp only [List.length_cons]
            omega

/-- Double induction on the lexicographic measure: from any state whose
registry ids lie in the universe, enough fuel makes the loop finish. -/
theorem term_aux {ε : Type} (env : Env ε) (dir version : String)
    (U : Finset Nat) (hU : ∀ i m, env.remoteAddon i = .ok m → m.id ∈ U) :
    ∀ (a b : Nat) (s : ResolveState), measA U s ≤ a → measB s ≤ b →
      (∀ x ∈ s.dict, x.id ∈ U) →
      ∃ fuel r, download_mod_to_dir env dir version fuel s = some r := by
  intro a
  induction a with
  | zero =>
    intro b
    induction b with
    | zero =>
      intro s hA hB hInv
      rcases step_progress env dir version U hU s hInv with
        ⟨r, hh⟩ | ⟨s1, hn, hInv1, hdec⟩
      · exact ⟨1, r, by rw [download_mod_to_dir_succ, hh]⟩
      · rcases hdec with hlt | ⟨heq, hlt⟩ <;> omega
    | succ b ihb =>
      intro s hA hB hInv
      rcases step_progress env dir version U hU s hInv with
        ⟨r, hh⟩ | ⟨s1, hn, hInv1, hdec⟩
      · exact ⟨1, r, by rw [download_mod_to_dir_succ, hh]⟩
      · rcases hdec with hlt | ⟨heq, hlt⟩
        · omega
        · obtain ⟨fuel, r, hrun⟩ := ihb s1 (by omega) (by omega) hInv1
          exact ⟨fuel + 1, r, by rw [download_mod_to_dir_succ, hn]; exact hrun⟩
  | succ a iha =>
    intro b
    induction b with
    | zero =>
      intro s hA hB hInv
      rcases step_progress env dir version U hU s hInv with
        ⟨r, hh⟩ | ⟨s1, hn, hInv1, hdec⟩
      · exact ⟨1, r, by rw [download_mod_to_dir_succ, hh]⟩
      · rcases hdec with hlt | ⟨heq, hlt⟩
        · obtain ⟨fuel, r, hrun⟩ := iha (measB s1) s1 (by omega)
            (Nat.le_refl _) hInv1
          exact ⟨fuel + 1, r, by rw [download_mod_to_dir_succ, hn]; exact hrun⟩
        · omega
    | succ b ihb =>
      intro s hA hB hInv
      rcases step_progress env dir version U hU s hInv with
        ⟨r, hh⟩ | ⟨s1, hn, hInv1, hdec⟩
      · exact ⟨1, r, by rw [download_mod_to_dir_succ, hh]⟩
      · rcases hdec with hlt | ⟨heq, hlt⟩
        · obtain ⟨fuel, r, hrun⟩ := iha (measB s1) s1 (by omega)
            (Nat.le_refl _) hInv1
          exact ⟨fuel + 1, r, by rw [download_mod_to_dir_succ, hn]; exact hrun⟩
        · obtain ⟨fuel, r, hrun⟩ := ihb s1 (by omega) (by omega) hInv1
          exact ⟨fuel + 1, r, by rw [download_mod_to_dir_succ, hn]; exact hrun⟩

/-- C2: (1) resolution terminates for every dependency graph — in particular
cyclic ones — whenever the remote catalog can only return ids from some
finite set (any real catalog is finite): some fuel makes the loop reach a
result; (2) on the concrete mutual cycle 10 ⇄ 20 (both with a "1.12.2"
file), the resolution from root 10 finishes with `Ok` and each of the two
ids is downloaded exactly once. -/
theorem resolution_terminates :
    (∀ (ε : Type) (env : Env ε) (dir version : String) (s : ResolveState)
      (S : Finset Nat),
      (∀ i m, env.remoteAddon i = .ok m → m.id ∈ S) →
      ∃ fuel r, download_mod_to_dir env dir version fuel s = some r) ∧
    (runIsOk (download_mod_to_dir cycEnv "d" "1.12.2" 6
        (initState 10 cycDict)) = true ∧
      runDlIds (download_mod_to_dir cycEnv "d" "1.12.2" 6
        (initState 10 cycDict)) = some [10, 20] ∧
      List.count 10 [10, 20] = 1 ∧ List.count 20 [10, 20] = 1) := by
  refine ⟨?_, rfl, rfl, by decide, by decide⟩
  intro ε env dir version s S hS
  have hU : ∀ i m, env.remoteAddon i = .ok m →
      m.id ∈ (s.dict.map (fun m => m.id)).toFinset ∪ S := by
    intro i m h
    exact Finset.mem_union_right _ (hS i m h)
  refine term_aux env dir version _ hU (measA _ s) (measB s) s
    (Nat.le_refl _) (Nat.le_refl _) ?_
  intro x hx
  exact Finset.mem_union_left _ (by simp; exact ⟨x, hx, rfl⟩)

/-- Witness: termination instantiated on the concrete cycle environment. -/
theorem resolution_terminates_witness :
    ∃ fuel r, download_mod_to_dir cycEnv "d" "1.12.2" fuel
      (initState 10 cycDict) = some r :=
  resolution_terminates.1 String cycEnv "d" "1.12.2" (initState 10 cycDict) ∅
    (by intro i m h; simp [cycEnv] at h)

/-- C10: every file downloaded during a single resolution is written into the
one directory the resolution was invoked with (`dir.join(file_name_on_disk)`
for the fixed `dir`); the `download` handler derives that directory as
`./mods/<version>/<name>` from the root mod's registry (or freshly fetched)
record, so dependencies do not get per-mod destination directories. -/
theorem single_destination_dir :
    (∀ (ε : Type) (env : Env ε) (dir version : String) (fuel : Nat)
      (root : Nat) (dict0 : List ModInfo) (r : RunResult ε),
      download_mod_to_dir env dir version fuel (initState root dict0) = some r →
      ∀ e ∈ r.state.dlTrace, ∃ fn, e.2 = joinPath dir fn) ∧
    (∀ (ε : Type) (cenv : CmdEnv ε) (fuel : Nat) (line : List String)
      (dict0 : List ModInfo) (o : CmdOutcome ε) (st : CmdSt),
      (∀ i m, cenv.rootFetch i = .ok (some m) → m.id = i) →
      downloadCmd cenv fuel line dict0 = some o →
      (o = .done st ∨ ∃ e, o = .aborted e st) →
      (∀ p ∈ st.roots, ∃ m, m ∈ st.dict ∧ m.id = p.1 ∧
        p.2 = modsDir cenv.promptVersion m.name) ∧
      (∀ ev ∈ st.events, ∃ idr d fn, (idr, d) ∈ st.roots ∧
        ev.2 = joinPath d fn)) := by
  constructor
  · intro ε env dir version fuel root dict0 r hrun
    exact run_trace_dir env dir version fuel (initState root dict0) r hrun
      (by simp [initState])
  · intro ε cenv fuel line dict0 o st hroot h ho
    cases line with
    | nil =>
      simp only [downloadCmd, Option.some.injEq] at h
      subst h
      rcases ho with ho | ⟨e, ho⟩ <;> cases ho
    | cons cmd args =>
      rw [downloadCmd] at h
      by_cases hcond : (cmd == "download" && !args.isEmpty) = true
      · rw [if_pos hcond] at h
        exact downloadLoop_dest cenv fuel hroot args ⟨1, dict0, [], []⟩ o st
          h ho ⟨by simp, by simp⟩
      · rw [if_neg hcond] at h
        simp only [Option.some.injEq] at h
        subst h
        rcases ho with ho | ⟨e, ho⟩ <;> cases ho

/-- Witness: in the cycle scenario, resolving root 10 (named "ten") via the
download command writes both ten.jar and twenty.jar under
./mods/1.12.2/ten. -/
theorem single_destination_dir_witness :
    (∃ fn, (joinPath "d" "ten.jar") = joinPath "d" fn) ∧
    (∃ idr d fn, (idr, d) ∈ cycCmdFinalSt.roots ∧
      joinPath (modsDir "1.12.2" "ten") "twenty.jar" = joinPath d fn) := by
  constructor
  · exact single_destination_dir.1 String cycEnv "d" "1.12.2" 6 10 cycDict
      (.ok cycFinal) rfl (10, joinPath "d" "ten.jar")
      (by simp [cycFinal, RunResult.state])
  · have h := (single_destination_dir.2 String cmdEnvCyc 6 ["download", "10"]
      cycDict (.done cycCmdFinalSt) cycCmdFinalSt
      (by intro i m hm; simp [cmdEnvCyc] at hm) rfl (Or.inl rfl)).2
    have := h (20, joinPath (modsDir "1.12.2" "ten") "twenty.jar")
      (by simp [cycCmdFinalSt])
    simpa using this

end Mcmod
